import Mathlib

/-!
# Verification of the VTR physical tile pin/class addressing layer

A shallow embedding of `libs/libarchfpga/src/physical_types_util.cpp` (the
pin/class address translators over physical tile types), together with proofs
and refutations of the addressing properties stated for it: the
capacity-location round trip, the sub-tile/capacity/logical-block lookups from
a physical pin or class number, the class-number round trip, out-of-range
rejection, the unresolved-port sentinel, flat address-space sizing, the
`is_opin` bounds guard, and the sub-tile resolution order for logical blocks.

Modelling conventions:
  * C++ `int` indices and counts are modelled as `Nat` where the reachable
    values are non-negative, and as `Int` where the source uses `-1` as an
    in-band "not found" value (`get_primitives_class_physical_num`) or the
    `OPEN` sentinel.
  * Pointers to registry objects (`const t_sub_tile*`,
    `t_logical_block_type_ptr`) are modelled by the element's position in the
    owning list (sub-tiles) or by the element's value (logical blocks);
    pointer comparison of sub-tile references is position equality, which is
    what comparing `&sub_tile` against an element of `physical_tile->sub_tiles`
    means in the source.
  * `archfpga_throw` and out-of-bounds accesses are modelled as `none`
    (`Option`) or as an explicit error constructor; `VTR_ASSERT` failures get
    their own constructor where the distinction matters.
-/

/-- A logical block type (`t_logical_block_type`).  Only the fields read by
the translated functions are modelled:
`index`, `pb_type->num_pins` (root-level pin count),
`pb_pin_idx_bimap.size()` (total pin-graph pin count, root plus internal), and
`primitive_class_inf.size()` (number of primitive equivalence classes). -/
structure LogicalBlock where
  index : Nat
  pb_type_num_pins : Nat
  pb_pin_idx_bimap_size : Nat
  num_primitive_classes : Nat
deriving DecidableEq, Inhabited, Repr

/-- A sub-tile port (`t_physical_tile_port`): name, own index in the sub-tile's
port list, absolute first pin index within the sub-tile instance, pin count. -/
structure PhysPort where
  name : String
  index : Nat
  absolute_first_pin_index : Nat
  num_pins : Nat
deriving DecidableEq, Inhabited, Repr

/-- A sub-tile (`t_sub_tile`): its declared `index`, its capacity range
`[capacity_low, capacity_high]`, its total physical pin count over all
capacity instances, its equivalent logical block types, its ports, and the
sub-tile-local-pin → tile-global-pin table. -/
structure SubTile where
  index : Nat
  capacity_low : Nat
  capacity_high : Nat
  num_phy_pins : Nat
  equivalent_sites : List LogicalBlock
  ports : List PhysPort
  sub_tile_to_tile_pin_indices : List Nat
deriving DecidableEq, Inhabited, Repr

/-- Electrical class type (`e_pin_type`). -/
inductive e_pin_type where
  | DRIVER
  | RECEIVER
deriving DecidableEq, Inhabited, Repr

/-- A pin-equivalence class record (`t_class`); only its `type` is read by the
functions under verification. -/
structure t_class where
  type : e_pin_type
deriving DecidableEq, Inhabited, Repr

/-- A physical tile type (`t_physical_tile_type`): name, declared root-level
pin count, ordered sub-tiles, per-pin class index table (`pin_class`), class
records (`class_inf`), and the externally built direct pin map
(`tile_block_pin_directs_map`), modelled as a function from
(logical block index, sub-tile index, logical pin number) to the sub-tile-local
physical pin, `none` when the map has no entry. -/
structure PhysicalTileType where
  name : String
  num_pins : Nat
  sub_tiles : List SubTile
  pin_class : List Nat
  class_inf : List t_class
  tile_block_pin_directs_map : Nat → Nat → Nat → Option Nat

/-- Modelled from the spec: `t_capacity_range::total()` of the Type Registry
(header not part of the reviewed sources); the spec defines the capacity range
`[low, high]` with instance count `high - low + 1` (§3, glossary). -/
def capacity_total (st : SubTile) : Nat :=
  st.capacity_high - st.capacity_low + 1

/-- Modelled from the spec: `t_capacity_range::is_in_range(v)` of the Type
Registry (header not part of the reviewed sources); per the spec the inverse
capacity translation requires the capacity location to lie in `[low, high]`
(§4.2). -/
def capacity_is_in_range (st : SubTile) (v : Nat) : Bool :=
  decide (st.capacity_low ≤ v) && decide (v ≤ st.capacity_high)

/-- The `OPEN` sentinel (`-1`), the explicit "unresolved" value used by the
port-resolution result. -/
def OPEN : Int := -1

/-- Total root-level pin count of a list of sub-tiles (the running
`sub_tile.num_phy_pins` accumulation used by every root-level scan). -/
def sum_phy_pins (subs : List SubTile) : Nat :=
  (subs.map (fun st => st.num_phy_pins)).sum

@[simp] theorem sum_phy_pins_nil : sum_phy_pins [] = 0 := rfl

@[simp] theorem sum_phy_pins_cons (st : SubTile) (l : List SubTile) :
    sum_phy_pins (st :: l) = st.num_phy_pins + sum_phy_pins l := by
  simp [sum_phy_pins]

theorem sum_phy_pins_append (l1 l2 : List SubTile) :
    sum_phy_pins (l1 ++ l2) = sum_phy_pins l1 + sum_phy_pins l2 := by
  induction l1 with
  | nil => simp
  | cons a l ih => simp [ih]; omega

/-! ## `get_pin_index_for_inst` (root-level locate) -/

/-- Result of `get_pin_index_for_inst`: the returned triple
(index within the capacity instance, capacity instance number, sub-tile index),
the entry `VTR_ASSERT(pin_index < type->num_pins)` tripping, or the
`archfpga_throw` at the end of the scan (which reports the tile name and the
offending pin index). -/
inductive PinIndexResult where
  | ok (inst_index : Nat) (inst_num : Nat) (sub_tile_index : Nat)
  | assert_failure
  | arch_inconsistency (tile_name : String) (pin_index : Nat)
deriving DecidableEq, Repr

/-- The scan loop of `get_pin_index_for_inst`: walk the sub-tiles accumulating
`total_pin_counts` (pin count including the current sub-tile) and `pin_offset`
(pin count before the current sub-tile); on the first sub-tile with
`pin_index < total_pin_counts`, divide the offset-corrected index by the
per-instance pin count `num_phy_pins / capacity.total()`. -/
def pin_index_for_inst_scan (pin_index : Nat) :
    List SubTile → Nat → Nat → Option (Nat × Nat × Nat)
  | [], _, _ => none
  | st :: rest, total_pin_counts, pin_offset =>
    let total_pin_counts2 := total_pin_counts + st.num_phy_pins
    if pin_index < total_pin_counts2 then
      let pins_per_inst := st.num_phy_pins / capacity_total st
      some ((pin_index - pin_offset) % pins_per_inst,
            (pin_index - pin_offset) / pins_per_inst,
            st.index)
    else
      pin_index_for_inst_scan pin_index rest total_pin_counts2
        (pin_offset + st.num_phy_pins)

/-- Translation of `get_pin_index_for_inst`. -/
def get_pin_index_for_inst (t : PhysicalTileType) (pin_index : Nat) :
    PinIndexResult :=
  if pin_index < t.num_pins then
    match pin_index_for_inst_scan pin_index t.sub_tiles 0 0 with
    | some (a, b, c) => .ok a b c
    | none => .arch_inconsistency t.name pin_index
  else
    .assert_failure

/-! ## Port resolution and pin naming -/

/-- The fields of `t_pin_inst_port`. -/
structure t_pin_inst_port where
  sub_tile_index : Int
  capacity_instance : Int
  port_index : Int
  pin_index_in_port : Int
deriving DecidableEq, Repr

/-- The port scan of `block_type_pin_index_to_pin_inst`: the first port whose
half-open range `[absolute_first_pin_index, absolute_first_pin_index +
num_pins)` contains the sub-tile-local pin index resolves it; no match leaves
the `OPEN` sentinel pair. -/
def pin_inst_port_scan (pin_index : Nat) : List PhysPort → Int × Int
  | [] => (OPEN, OPEN)
  | port :: rest =>
    if port.absolute_first_pin_index ≤ pin_index ∧
        pin_index < port.absolute_first_pin_index + port.num_pins then
      ((port.index : Int), ((pin_index - port.absolute_first_pin_index : Nat) : Int))
    else
      pin_inst_port_scan pin_index rest

/-- Translation of `block_type_pin_index_to_pin_inst`; `none` models the failure of the
underlying `get_pin_index_for_inst` call (and an out-of-range
`sub_tiles[sub_tile_index]` access, unreachable for well-formed tiles). -/
def block_type_pin_index_to_pin_inst (t : PhysicalTileType) (pin_index : Nat) :
    Option t_pin_inst_port :=
  match get_pin_index_for_inst t pin_index with
  | .ok local_pin inst_num sub_tile_index =>
    let st := t.sub_tiles.getD sub_tile_index default
    let pr := pin_inst_port_scan local_pin st.ports
    some ⟨(sub_tile_index : Int), (inst_num : Int), pr.1, pr.2⟩
  | _ => none

/-- The port scan of `block_type_pin_index_to_name`: on a match the assembled
name is `prefix ++ port.name ++ "[" ++ index-in-port ++ "]"`; after a full
scan with no match the function returns the literal string `"<UNKOWN>"`
(discarding the prefix built so far). -/
def pin_name_port_scan (name_so_far : String) (pin_index : Nat) :
    List PhysPort → String
  | [] => "<UNKOWN>"
  | port :: rest =>
    if port.absolute_first_pin_index ≤ pin_index ∧
        pin_index < port.absolute_first_pin_index + port.num_pins then
      name_so_far ++ port.name ++ "[" ++
        toString (pin_index - port.absolute_first_pin_index) ++ "]"
    else
      pin_name_port_scan name_so_far pin_index rest

/-- Translation of `block_type_pin_index_to_name`; `none` models the entry
`VTR_ASSERT(pin_index < type->num_pins)` or a failing
`get_pin_index_for_inst`. -/
def block_type_pin_index_to_name (t : PhysicalTileType) (pin_index : Nat) :
    Option String :=
  if pin_index < t.num_pins then
    match get_pin_index_for_inst t pin_index with
    | .ok local_pin inst_num sub_tile_index =>
      let st := t.sub_tiles.getD sub_tile_index default
      let pin_name :=
        t.name ++
          (if 1 < capacity_total st then "[" ++ toString inst_num ++ "]" else "")
          ++ "."
      some (pin_name_port_scan pin_name local_pin st.ports)
    | _ => none
  else
    none

/-! ## `is_opin` -/

/-- Translation of `is_opin`.  The translation keeps the source's guard `ipin > num_pins`
verbatim; the `pin_class` / `class_inf` vector accesses are modelled with
`List.get?`, so `none` is an out-of-bounds read (undefined behaviour in the
source). -/
def is_opin (ipin : Nat) (t : PhysicalTileType) : Option Bool :=
  if t.num_pins < ipin then
    some false
  else
    match t.pin_class.get? ipin with
    | none => none
    | some iclass =>
      match t.class_inf.get? iclass with
      | none => none
      | some c => if c.type = e_pin_type.DRIVER then some true else some false

/-! ## Capacity-location translation -/

/-- The scan loop of `get_capacity_location_from_physical_pin`: on the first
sub-tile whose pin count exceeds the offset-corrected pin, divide the
sub-tile-local pin by the per-instance pin count; the quotient plus
`capacity.low` is the capacity location, the remainder the relative pin. -/
def capacity_location_scan :
    List SubTile → Nat → Nat → Option (Nat × Nat)
  | [], _, _ => none
  | st :: rest, pin, pins_to_remove =>
    let sub_tile_num_pins := st.num_phy_pins
    let sub_tile_pin := pin - pins_to_remove
    if sub_tile_pin < sub_tile_num_pins then
      some (sub_tile_pin / (sub_tile_num_pins / capacity_total st) + st.capacity_low,
            sub_tile_pin % (sub_tile_num_pins / capacity_total st))
    else
      capacity_location_scan rest pin (pins_to_remove + sub_tile_num_pins)

/-- Translation of `get_capacity_location_from_physical_pin`; `none` models the
`archfpga_throw` when no sub-tile contains the pin. -/
def get_capacity_location_from_physical_pin
    (t : PhysicalTileType) (pin : Nat) : Option (Nat × Nat) :=
  capacity_location_scan t.sub_tiles pin 0

/-- The scan loop of `get_physical_pin_from_capacity_location`: the first
sub-tile whose capacity range contains the location yields
`pins_to_add + per-instance-pin-count * (location - low) + relative_pin`. -/
def physical_pin_from_capacity_scan :
    List SubTile → Nat → Nat → Nat → Option Nat
  | [], _, _, _ => none
  | st :: rest, relative_pin, capacity_location, pins_to_add =>
    let num_inst_pins := st.num_phy_pins / capacity_total st
    if capacity_is_in_range st capacity_location = true then
      some (pins_to_add + num_inst_pins * (capacity_location - st.capacity_low)
              + relative_pin)
    else
      physical_pin_from_capacity_scan rest relative_pin capacity_location
        (pins_to_add + st.num_phy_pins)

/-- Translation of `get_physical_pin_from_capacity_location`; `none` models the
`archfpga_throw` when no sub-tile's capacity range contains the location. -/
def get_physical_pin_from_capacity_location
    (t : PhysicalTileType) (relative_pin capacity_location : Nat) : Option Nat :=
  physical_pin_from_capacity_scan t.sub_tiles relative_pin capacity_location 0

/-! ## Pin counts and lookups by physical pin number -/

/-- Translation of `get_total_num_sub_tile_pins`: the summed `pb_pin_idx_bimap.size()` of the
equivalent sites, multiplied by the capacity total. -/
def get_total_num_sub_tile_pins (st : SubTile) : Nat :=
  ((st.equivalent_sites.map (fun s => s.pb_pin_idx_bimap_size)).sum)
    * capacity_total st

/-- Translation of `get_total_num_tile_pins`: per sub-tile and equivalent site,
`pb_type->num_pins * capacity.total()`, summed. -/
def get_total_num_tile_pins (t : PhysicalTileType) : Nat :=
  (t.sub_tiles.map (fun st =>
    (st.equivalent_sites.map (fun s =>
      s.pb_type_num_pins * capacity_total st)).sum)).sum

/-- Translation of `get_tile_max_ptc`. -/
def get_tile_max_ptc (t : PhysicalTileType) (is_flat : Bool) : Nat :=
  if is_flat then t.num_pins + get_total_num_tile_pins t else t.num_pins

/-- The root branch scan of `get_sub_tile_from_pin_physical_num`: note that on
a match the loop neither stops nor accumulates, it records the sub-tile
(modelled by its position `idx`) and keeps scanning. -/
def sub_tile_root_pin_scan :
    List SubTile → Nat → Nat → Nat → Option Nat → Option Nat
  | [], _, _, _, target => target
  | st :: rest, physical_num, idx, num_seen_root_pins, target =>
    if physical_num < num_seen_root_pins + st.num_phy_pins then
      sub_tile_root_pin_scan rest physical_num (idx + 1) num_seen_root_pins
        (some idx)
    else
      sub_tile_root_pin_scan rest physical_num (idx + 1)
        (num_seen_root_pins + st.num_phy_pins) target

/-- The internal branch scan of `get_sub_tile_from_pin_physical_num`, with the
same record-without-stopping shape, over the internal pin counts
`get_total_num_sub_tile_pins - num_phy_pins`. -/
def sub_tile_internal_pin_scan :
    List SubTile → Nat → Nat → Nat → Option Nat → Option Nat
  | [], _, _, _, target => target
  | st :: rest, physical_num, idx, num_seen_root_pins, target =>
    let num_internal_sub_tile_pin :=
      get_total_num_sub_tile_pins st - st.num_phy_pins
    if physical_num < num_seen_root_pins + num_internal_sub_tile_pin then
      sub_tile_internal_pin_scan rest physical_num (idx + 1) num_seen_root_pins
        (some idx)
    else
      sub_tile_internal_pin_scan rest physical_num (idx + 1)
        (num_seen_root_pins + num_internal_sub_tile_pin) target

/-- Translation of `get_sub_tile_from_pin_physical_num`; the returned sub-tile pointer is
modelled by the sub-tile's position, `none` models the final
`VTR_ASSERT(target_sub_tile != nullptr)` tripping. -/
def get_sub_tile_from_pin_physical_num
    (t : PhysicalTileType) (physical_num : Nat) : Option Nat :=
  if physical_num < t.num_pins then
    sub_tile_root_pin_scan t.sub_tiles physical_num 0 0 none
  else
    sub_tile_internal_pin_scan t.sub_tiles physical_num 0 t.num_pins none

/-- The prefix walk of the internal branch of
`get_sub_tile_cap_from_pin_physical_num`: accumulate the internal pin counts
of the sub-tiles strictly before the target sub-tile (pointer comparison
modelled as position comparison via the counter `idx`). -/
def sub_tile_cap_seen_scan (target_idx : Nat) :
    List SubTile → Nat → Nat → Nat
  | [], _, num_seen_pins => num_seen_pins
  | st :: rest, idx, num_seen_pins =>
    if idx = target_idx then num_seen_pins
    else
      sub_tile_cap_seen_scan target_idx rest (idx + 1)
        (num_seen_pins + (get_total_num_sub_tile_pins st - st.num_phy_pins))

/-- The capacity-counting loop of the internal branch of
`get_sub_tile_cap_from_pin_physical_num`. -/
def sub_tile_cap_count_scan (physical_num block_num_pins : Nat) :
    Nat → Nat → Nat → Option Nat
  | 0, _, _ => none
  | caps_left + 1, sub_tile_cap, num_seen_pins =>
    if physical_num < num_seen_pins + block_num_pins then some sub_tile_cap
    else
      sub_tile_cap_count_scan physical_num block_num_pins caps_left
        (sub_tile_cap + 1) (num_seen_pins + block_num_pins)

/-- Translation of `get_sub_tile_cap_from_pin_physical_num`.  The root branch divides the
raw `physical_num` (with no offset subtraction) by the per-instance pin
count; `none` models the final `VTR_ASSERT(target_cap != -1)` or a failed
sub-tile lookup. -/
def get_sub_tile_cap_from_pin_physical_num
    (t : PhysicalTileType) (physical_num : Nat) : Option Nat :=
  match get_sub_tile_from_pin_physical_num t physical_num with
  | none => none
  | some sub_tile_idx =>
    let st := t.sub_tiles.getD sub_tile_idx default
    if physical_num < t.num_pins then
      some (physical_num / (st.num_phy_pins / capacity_total st))
    else
      let block_num_pins := get_total_num_sub_tile_pins st / capacity_total st
      let num_seen_pins :=
        sub_tile_cap_seen_scan sub_tile_idx t.sub_tiles 0 t.num_pins
      sub_tile_cap_count_scan physical_num block_num_pins
        (capacity_total st) 0 num_seen_pins

/-! ## Class address translation -/

/-- Sum of `primitive_class_inf.size()` over a list of equivalent sites. -/
def sum_primitive_classes (sites : List LogicalBlock) : Nat :=
  (sites.map (fun s => s.num_primitive_classes)).sum

@[simp] theorem sum_primitive_classes_nil : sum_primitive_classes [] = 0 := rfl

@[simp] theorem sum_primitive_classes_cons (s : LogicalBlock)
    (l : List LogicalBlock) :
    sum_primitive_classes (s :: l)
      = s.num_primitive_classes + sum_primitive_classes l := by
  simp [sum_primitive_classes]

theorem sum_primitive_classes_append (l1 l2 : List LogicalBlock) :
    sum_primitive_classes (l1 ++ l2)
      = sum_primitive_classes l1 + sum_primitive_classes l2 := by
  induction l1 with
  | nil => simp
  | cons a l ih => simp [ih]; omega

/-- Primitive class count of one sub-tile across all its capacity instances
and equivalent sites (the amount the triple scan accumulates while crossing
the sub-tile). -/
def sub_tile_num_classes (st : SubTile) : Nat :=
  capacity_total st * sum_primitive_classes st.equivalent_sites

/-- Primitive class count of a list of sub-tiles. -/
def classes_in_sub_tiles (subs : List SubTile) : Nat :=
  (subs.map sub_tile_num_classes).sum

@[simp] theorem classes_in_sub_tiles_nil : classes_in_sub_tiles [] = 0 := rfl

@[simp] theorem classes_in_sub_tiles_cons (st : SubTile) (l : List SubTile) :
    classes_in_sub_tiles (st :: l)
      = sub_tile_num_classes st + classes_in_sub_tiles l := by
  simp [classes_in_sub_tiles]

theorem classes_in_sub_tiles_append (l1 l2 : List SubTile) :
    classes_in_sub_tiles (l1 ++ l2)
      = classes_in_sub_tiles l1 + classes_in_sub_tiles l2 := by
  induction l1 with
  | nil => simp
  | cons a l ih => simp [ih]; omega

/-- Translation of `get_tile_num_primitive_classes`: per sub-tile and equivalent site,
`primitive_class_inf.size() * capacity.total()`, summed. -/
def get_tile_num_primitive_classes (t : PhysicalTileType) : Nat :=
  (t.sub_tiles.map (fun st =>
    (st.equivalent_sites.map (fun s =>
      s.num_primitive_classes * capacity_total st)).sum)).sum

/-- The innermost loop of `get_primitives_class_physical_num`: scan the
equivalent sites; when the enclosing sub-tile and capacity both match
(`hit`), the target site yields `num_seen + logical_primitive_class_num`
(`Sum.inr`); otherwise the site's class count is accumulated, and the final
accumulator is handed back (`Sum.inl`). -/
def prim_class_scan_sites (curr_logical_block : LogicalBlock)
    (logical_primitive_class_num : Nat) (hit : Bool) :
    List LogicalBlock → Nat → Sum Nat Nat
  | [], num_seen => Sum.inl num_seen
  | eq_site :: rest, num_seen =>
    if hit = true ∧ eq_site = curr_logical_block then
      Sum.inr (num_seen + logical_primitive_class_num)
    else
      prim_class_scan_sites curr_logical_block logical_primitive_class_num hit
        rest (num_seen + eq_site.num_primitive_classes)

/-- The capacity loop of `get_primitives_class_physical_num`: iterate
`sub_tile_cap` while `caps_left` counts down from `capacity.total()`. -/
def prim_class_scan_caps (curr_logical_block : LogicalBlock)
    (logical_primitive_class_num : Nat) (st_hit : Bool)
    (curr_relative_cap : Nat) (sites : List LogicalBlock) :
    Nat → Nat → Nat → Sum Nat Nat
  | 0, _, num_seen => Sum.inl num_seen
  | caps_left + 1, sub_tile_cap, num_seen =>
    match prim_class_scan_sites curr_logical_block logical_primitive_class_num
        (st_hit && decide (sub_tile_cap = curr_relative_cap)) sites num_seen with
    | Sum.inr r => Sum.inr r
    | Sum.inl num_seen2 =>
      prim_class_scan_caps curr_logical_block logical_primitive_class_num
        st_hit curr_relative_cap sites caps_left (sub_tile_cap + 1) num_seen2

/-- The outer sub-tile loop of `get_primitives_class_physical_num`; the
pointer comparison `&sub_tile == curr_sub_tile` is the position comparison
`idx = curr_sub_tile`. -/
def prim_class_scan_sub_tiles (curr_sub_tile : Nat)
    (curr_logical_block : LogicalBlock) (curr_relative_cap : Nat)
    (logical_primitive_class_num : Nat) :
    List SubTile → Nat → Nat → Sum Nat Nat
  | [], _, num_seen => Sum.inl num_seen
  | st :: rest, idx, num_seen =>
    match prim_class_scan_caps curr_logical_block logical_primitive_class_num
        (decide (idx = curr_sub_tile)) curr_relative_cap st.equivalent_sites
        (capacity_total st) 0 num_seen with
    | Sum.inr r => Sum.inr r
    | Sum.inl num_seen2 =>
      prim_class_scan_sub_tiles curr_sub_tile curr_logical_block
        curr_relative_cap logical_primitive_class_num rest (idx + 1) num_seen2

/-- Translation of `get_primitives_class_physical_num`; returns `-1` exactly when the triple
scan never hits the requested (sub-tile, relative capacity, logical block). -/
def get_primitives_class_physical_num (t : PhysicalTileType)
    (curr_sub_tile : Nat) (curr_logical_block : LogicalBlock)
    (curr_relative_cap : Nat) (logical_primitive_class_num : Nat) : Int :=
  match prim_class_scan_sub_tiles curr_sub_tile curr_logical_block
      curr_relative_cap logical_primitive_class_num t.sub_tiles 0 0 with
  | Sum.inr r => (r : Int)
  | Sum.inl _ => -1

/-- The scan of `get_sub_tile_from_class_physical_num`: for each sub-tile the
start is `get_primitives_class_physical_num` of its first equivalent site at
relative capacity 0 and class 0, and the end adds every site's class count
once per capacity instance (the source's double accumulation loop, equal to
`sub_tile_num_classes`). -/
def sub_tile_from_class_scan (t : PhysicalTileType)
    (physical_class_num : Int) : List SubTile → Nat → Option Nat
  | [], _ => none
  | st :: rest, idx =>
    let start_physical_class_num :=
      get_primitives_class_physical_num t idx st.equivalent_sites.headI 0 0
    let end_physical_class_num :=
      start_physical_class_num + (sub_tile_num_classes st : Int)
    if start_physical_class_num ≤ physical_class_num ∧
        physical_class_num < end_physical_class_num then
      some idx
    else
      sub_tile_from_class_scan t physical_class_num rest (idx + 1)

/-- Translation of `get_sub_tile_from_class_physical_num`; the returned pointer is the
sub-tile's position, `none` is the `nullptr` fall-through. -/
def get_sub_tile_from_class_physical_num (t : PhysicalTileType)
    (physical_class_num : Int) : Option Nat :=
  sub_tile_from_class_scan t physical_class_num t.sub_tiles 0

/-- The capacity loop of `get_sub_tile_cap_from_class_physical_num`: per
capacity instance, the window starts at `get_primitives_class_physical_num`
of the first equivalent site at that capacity and spans one copy of every
site's class count. -/
def sub_tile_cap_class_caps_scan (t : PhysicalTileType)
    (physical_class_num : Int) (idx : Nat) (st : SubTile) :
    Nat → Nat → Option Nat
  | 0, _ => none
  | caps_left + 1, sub_tile_cap =>
    let start_physical_class_num :=
      get_primitives_class_physical_num t idx st.equivalent_sites.headI
        sub_tile_cap 0
    let end_physical_class_num :=
      start_physical_class_num
        + (sum_primitive_classes st.equivalent_sites : Int)
    if start_physical_class_num ≤ physical_class_num ∧
        physical_class_num < end_physical_class_num then
      some sub_tile_cap
    else
      sub_tile_cap_class_caps_scan t physical_class_num idx st caps_left
        (sub_tile_cap + 1)

/-- The sub-tile loop of `get_sub_tile_cap_from_class_physical_num`. -/
def sub_tile_cap_from_class_scan (t : PhysicalTileType)
    (physical_class_num : Int) : List SubTile → Nat → Option Nat
  | [], _ => none
  | st :: rest, idx =>
    match sub_tile_cap_class_caps_scan t physical_class_num idx st
        (capacity_total st) 0 with
    | some c => some c
    | none => sub_tile_cap_from_class_scan t physical_class_num rest (idx + 1)

/-- Translation of `get_sub_tile_cap_from_class_physical_num`; returns `-1` when no window
contains the class number. -/
def get_sub_tile_cap_from_class_physical_num (t : PhysicalTileType)
    (physical_class_num : Int) : Int :=
  match sub_tile_cap_from_class_scan t physical_class_num t.sub_tiles 0 with
  | some c => (c : Int)
  | none => -1

/-- The site loop of `get_logical_block_from_class_physical_num`: per
equivalent site, the window starts at that site's
`get_primitives_class_physical_num` and spans its own class count. -/
def logical_block_class_sites_scan (t : PhysicalTileType)
    (physical_class_num : Int) (idx : Nat) (sub_tile_cap : Nat) :
    List LogicalBlock → Option LogicalBlock
  | [] => none
  | eq_site :: rest =>
    let start_physical_class_num :=
      get_primitives_class_physical_num t idx eq_site sub_tile_cap 0
    let end_physical_class_num :=
      start_physical_class_num + (eq_site.num_primitive_classes : Int)
    if start_physical_class_num ≤ physical_class_num ∧
        physical_class_num < end_physical_class_num then
      some eq_site
    else
      logical_block_class_sites_scan t physical_class_num idx sub_tile_cap rest

/-- The capacity loop of `get_logical_block_from_class_physical_num`. -/
def logical_block_class_caps_scan (t : PhysicalTileType)
    (physical_class_num : Int) (idx : Nat) (st : SubTile) :
    Nat → Nat → Option LogicalBlock
  | 0, _ => none
  | caps_left + 1, sub_tile_cap =>
    match logical_block_class_sites_scan t physical_class_num idx sub_tile_cap
        st.equivalent_sites with
    | some s => some s
    | none =>
      logical_block_class_caps_scan t physical_class_num idx st caps_left
        (sub_tile_cap + 1)

/-- The sub-tile loop of `get_logical_block_from_class_physical_num`. -/
def logical_block_from_class_scan (t : PhysicalTileType)
    (physical_class_num : Int) : List SubTile → Nat → Option LogicalBlock
  | [], _ => none
  | st :: rest, idx =>
    match logical_block_class_caps_scan t physical_class_num idx st
        (capacity_total st) 0 with
    | some s => some s
    | none => logical_block_from_class_scan t physical_class_num rest (idx + 1)

/-- Translation of `get_logical_block_from_class_physical_num`; `none` is the `nullptr`
fall-through. -/
def get_logical_block_from_class_physical_num (t : PhysicalTileType)
    (physical_class_num : Int) : Option LogicalBlock :=
  logical_block_from_class_scan t physical_class_num t.sub_tiles 0

/-- Translation of `get_class_logical_num_from_class_physical_num`: compose the three
lookups, then subtract the owning unit's starting class number; `none`
models a `nullptr` dereference or one of the two `VTR_ASSERT`s
(`sub_tile_cap != -1`, `start_physical_class_num != -1`) tripping. -/
def get_class_logical_num_from_class_physical_num (t : PhysicalTileType)
    (physical_class_num : Int) : Option Int :=
  match get_sub_tile_from_class_physical_num t physical_class_num with
  | none => none
  | some sub_tile_idx =>
    let sub_tile_cap := get_sub_tile_cap_from_class_physical_num t
      physical_class_num
    if sub_tile_cap = -1 then none
    else
      match get_logical_block_from_class_physical_num t physical_class_num with
      | none => none
      | some logical_block =>
        let start_physical_class_num :=
          get_primitives_class_physical_num t sub_tile_idx logical_block
            sub_tile_cap.toNat 0
        if start_physical_class_num = -1 then none
        else some (physical_class_num - start_physical_class_num)

/-! ## Sub-tile resolution for a logical block, and `get_physical_pin` -/

/-- The scan of the two-argument
`get_logical_block_physical_sub_tile_index`: every matching sub-tile
overwrites the result and the loop never stops, so the last match in
declaration order wins. -/
def logical_block_sub_tile_index_scan (logical_block : LogicalBlock) :
    List SubTile → Option Nat → Option Nat
  | [], acc => acc
  | st :: rest, acc =>
    if logical_block ∈ st.equivalent_sites then
      logical_block_sub_tile_index_scan logical_block rest (some st.index)
    else
      logical_block_sub_tile_index_scan logical_block rest acc

/-- Two-argument `get_logical_block_physical_sub_tile_index`; `none` models
the `archfpga_throw` when no sub-tile lists the block. -/
def get_logical_block_physical_sub_tile_index (t : PhysicalTileType)
    (logical_block : LogicalBlock) : Option Nat :=
  logical_block_sub_tile_index_scan logical_block t.sub_tiles none

/-- The scan of the three-argument (capacity-qualified)
`get_logical_block_physical_sub_tile_index`: the first sub-tile that lists
the block and whose capacity range contains the slot wins (the loop breaks). -/
def logical_block_sub_tile_index_cap_scan (logical_block : LogicalBlock)
    (sub_tile_capacity : Nat) : List SubTile → Option Nat
  | [] => none
  | st :: rest =>
    if logical_block ∈ st.equivalent_sites ∧
        capacity_is_in_range st sub_tile_capacity = true then
      some st.index
    else
      logical_block_sub_tile_index_cap_scan logical_block sub_tile_capacity rest

/-- Three-argument `get_logical_block_physical_sub_tile_index`. -/
def get_logical_block_physical_sub_tile_index_with_cap (t : PhysicalTileType)
    (logical_block : LogicalBlock) (sub_tile_capacity : Nat) : Option Nat :=
  logical_block_sub_tile_index_cap_scan logical_block sub_tile_capacity
    t.sub_tiles

/-- Translation of `get_sub_tile_physical_pin`: look the logical pin up in the direct pin
map for (logical block, sub-tile); `none` models the `archfpga_throw` on a
missing entry. -/
def get_sub_tile_physical_pin (sub_tile_index : Nat) (t : PhysicalTileType)
    (logical_block : LogicalBlock) (pin : Nat) : Option Nat :=
  t.tile_block_pin_directs_map logical_block.index sub_tile_index pin

/-- Translation of `get_physical_pin`: resolve the sub-tile with the two-argument lookup,
translate through the direct pin map, then through
`sub_tile_to_tile_pin_indices`. -/
def get_physical_pin (t : PhysicalTileType) (logical_block : LogicalBlock)
    (pin : Nat) : Option Nat :=
  match get_logical_block_physical_sub_tile_index t logical_block with
  | none => none
  | some sub_tile_index =>
    match get_sub_tile_physical_pin sub_tile_index t logical_block pin with
    | none => none
    | some sub_tile_physical_pin =>
      (t.sub_tiles.getD sub_tile_index default).sub_tile_to_tile_pin_indices.get?
        sub_tile_physical_pin

/-! ## The flat address-space size required by the specification

The spec's invariant (§3) sizes the flat pin space as the root pin count plus
the sum, over every (sub-tile, capacity instance, equivalent block) unit, of
the block's total pin-graph pin count — the `pb_pin_idx_bimap` based count
that `get_total_num_sub_tile_pins` uses.  Stated here as a separate
definition, built from the source's own `get_total_num_sub_tile_pins`, to be
compared against `get_tile_max_ptc`. -/
def flat_pin_space_size_per_spec (t : PhysicalTileType) : Nat :=
  t.num_pins + (t.sub_tiles.map get_total_num_sub_tile_pins).sum

/-! ## Concrete fixtures -/

/-- A sub-tile with 6 root pins, one capacity instance (range `[0,0]`). -/
def ST0 : SubTile := ⟨0, 0, 0, 6, [], [], []⟩

/-- A sub-tile with 4 root pins, two capacity instances (range `[1,2]`),
hence 2 pins per instance. -/
def ST1 : SubTile := ⟨1, 1, 2, 4, [], [], []⟩

/-- A tile with two sub-tiles of 6 and 4 root pins (`num_pins = 10`) — the
spec's two-sub-tile locate scenario. -/
def tile10 : PhysicalTileType :=
  ⟨"TILE10", 10, [ST0, ST1], [], [], fun _ _ _ => none⟩

/-- A tile with one sub-tile of a single capacity instance, a single root
pin, and no ports (so no port range can contain any pin). -/
def tile7 : PhysicalTileType :=
  ⟨"T7", 1, [⟨0, 0, 0, 1, [], [], []⟩], [0], [⟨e_pin_type.RECEIVER⟩],
   fun _ _ _ => none⟩

/-- A logical block with 3 root-level pins but 5 total pin-graph pins. -/
def lbF : LogicalBlock := ⟨0, 3, 5, 0⟩

/-- A tile with one sub-tile (capacity 1) hosting `lbF`; `num_pins = 3`. -/
def tile8 : PhysicalTileType :=
  ⟨"T8", 3, [⟨0, 0, 0, 3, [lbF], [], []⟩], [], [], fun _ _ _ => none⟩

/-- A tile with `num_pins = 1`, a one-entry `pin_class` table and a
one-entry `class_inf` table (the pin's class is a RECEIVER class). -/
def tile9 : PhysicalTileType :=
  ⟨"T9", 1, [], [0], [⟨e_pin_type.RECEIVER⟩], fun _ _ _ => none⟩

/-- C2 (code bug).  In `tile10`, root pin 2 lies in the first sub-tile's
range `[0, 6)` under the linearization policy, but
`get_sub_tile_from_pin_physical_num` returns the second sub-tile (position
1): on a match the scan keeps iterating without accumulating, so a later
sub-tile whose own pin count exceeds the pin's remaining offset overwrites
the recorded owner. -/
theorem sub_tile_from_pin_lookup_wrong_owner :
    get_sub_tile_from_pin_physical_num tile10 2 = some 1 ∧
    sum_phy_pins (List.take 0 tile10.sub_tiles) ≤ 2 ∧
    2 < sum_phy_pins (List.take 1 tile10.sub_tiles) := by
  decide

/-- C3 (code bug).  In `tile10`, root pin 7 is owned by the second sub-tile
(pin offset 6, 2 pins per instance), so the claimed capacity instance is
`(7 - 6) / 2 = 0`; but `get_sub_tile_cap_from_pin_physical_num` divides the
raw pin number without subtracting the offset and returns `7 / 2 = 3`
(which does not even lie below the capacity total 2). -/
theorem sub_tile_cap_from_pin_missing_offset :
    get_sub_tile_cap_from_pin_physical_num tile10 7 = some 3 ∧
    (7 - sum_phy_pins (List.take 1 tile10.sub_tiles))
        / (ST1.num_phy_pins / capacity_total ST1) = 0 ∧
    (3 : Nat) ≠ 0 := by
  decide

/-- C6 (counterexample).  Querying `tile10` at pin index 10 (= `num_pins`)
does not fail with the architecture-inconsistency fatal error reporting the
tile name and index: the entry assertion `VTR_ASSERT(pin_index <
type->num_pins)` trips first. -/
theorem out_of_range_pin_not_arch_error :
    get_pin_index_for_inst tile10 10 = PinIndexResult.assert_failure ∧
    get_pin_index_for_inst tile10 10 ≠
      PinIndexResult.arch_inconsistency "TILE10" 10 := by
  decide

/-- C6 (amended).  For every pin index at or above the tile's declared pin
count, `get_pin_index_for_inst` fails via the internal-invariant assertion
(not the architecture-inconsistency error, which is reachable only with
assertions compiled out); it never returns a value. -/
theorem out_of_range_pin_trips_assert (t : PhysicalTileType)
    (pin_index : Nat) (h : t.num_pins ≤ pin_index) :
    get_pin_index_for_inst t pin_index = PinIndexResult.assert_failure := by
  unfold get_pin_index_for_inst
  rw [if_neg]
  omega

/-- Witness for C6's amended theorem at `tile10`, pin index 10. -/
theorem out_of_range_pin_trips_assert_witness :
    tile10.num_pins ≤ 10 ∧
    get_pin_index_for_inst tile10 10 = PinIndexResult.assert_failure :=
  ⟨by decide, out_of_range_pin_trips_assert tile10 10 (by decide)⟩

/-- C7 (code bug).  In `tile7`, root pin 0 falls in no port's range: port
resolution returns the explicit `OPEN` sentinel pair rather than failing,
and the naming function returns a plain string rather than aborting — but
that string is the misspelled literal `"<UNKOWN>"`, not the `"<UNKNOWN>"`
required by the claim. -/
theorem unresolved_port_sentinel_and_unkown_string :
    block_type_pin_index_to_pin_inst tile7 0 = some ⟨0, 0, OPEN, OPEN⟩ ∧
    block_type_pin_index_to_name tile7 0 = some "<UNKOWN>" ∧
    "<UNKOWN>" ≠ "<UNKNOWN>" := by
  decide

/-- C8 (code bug).  For `tile8` (one capacity-1 sub-tile hosting a block
with 3 root pins and 5 total pin-graph pins), `get_tile_max_ptc` under flat
numbering reports `3 + 3 = 6`, summing root-level `pb_type->num_pins`,
whereas the flat space sized by the `pb_pin_idx_bimap` pin-graph count (as
`get_total_num_sub_tile_pins` uses) is `3 + 5 = 8`. -/
theorem tile_max_ptc_undercounts_flat_space :
    get_tile_max_ptc tile8 true = 6 ∧
    flat_pin_space_size_per_spec tile8 = 8 ∧
    (6 : Nat) ≠ 8 := by
  decide

/-- C9 (code bug).  In `tile9` (`num_pins = 1`, `pin_class` of length 1),
`is_opin` at `ipin = num_pins = 1` does not return `false`: the guard is
`ipin > num_pins`, so the pin falls through to `pin_class[1]`, an
out-of-bounds read (`none`).  Strictly larger indices do return `false`
without touching the tables, and in-range indices read in bounds. -/
theorem is_opin_out_of_bounds_at_num_pins :
    is_opin 1 tile9 = none ∧
    is_opin 2 tile9 = some false ∧
    is_opin 0 tile9 = some false := by
  decide

/-! ## C4: correctness of `get_pin_index_for_inst` -/

theorem pin_index_for_inst_scan_app (pin : Nat) :
    ∀ (l1 : List SubTile) (st : SubTile) (l2 : List SubTile) (acc : Nat),
      acc + sum_phy_pins l1 ≤ pin →
      pin < acc + sum_phy_pins l1 + st.num_phy_pins →
      pin_index_for_inst_scan pin (l1 ++ st :: l2) acc acc =
        some ((pin - (acc + sum_phy_pins l1))
                % (st.num_phy_pins / capacity_total st),
              (pin - (acc + sum_phy_pins l1))
                / (st.num_phy_pins / capacity_total st),
              st.index) := by
  intro l1
  induction l1 with
  | nil =>
    intro st l2 acc hlo hhi
    simp only [List.nil_append, pin_index_for_inst_scan]
    rw [if_pos (by simpa using hhi)]
    simp
  | cons a l1 ih =>
    intro st l2 acc hlo hhi
    simp only [sum_phy_pins_cons] at hlo hhi
    simp only [List.cons_append, pin_index_for_inst_scan]
    rw [if_neg (by omega)]
    simp only [List.append_eq]
    rw [ih st l2 (acc + a.num_phy_pins) (by omega) (by omega),
      sum_phy_pins_cons, ← Nat.add_assoc]

/-- C4.  For every tile and every root-level pin index inside the pin range
of a sub-tile `st` (offset = accumulated pin counts of the sub-tiles before
it), `get_pin_index_for_inst` walks the sub-tiles in declaration order and
returns the triple (index within the capacity instance, capacity instance,
sub-tile index) obtained by dividing the offset-corrected index by the
per-instance pin count `num_phy_pins / capacity.total()`. -/
theorem get_pin_index_for_inst_locates (t : PhysicalTileType)
    (l1 : List SubTile) (st : SubTile) (l2 : List SubTile) (pin_index : Nat)
    (hdec : t.sub_tiles = l1 ++ st :: l2)
    (hpin : pin_index < t.num_pins)
    (hlo : sum_phy_pins l1 ≤ pin_index)
    (hhi : pin_index < sum_phy_pins l1 + st.num_phy_pins) :
    get_pin_index_for_inst t pin_index =
      PinIndexResult.ok
        ((pin_index - sum_phy_pins l1)
          % (st.num_phy_pins / capacity_total st))
        ((pin_index - sum_phy_pins l1)
          / (st.num_phy_pins / capacity_total st))
        st.index := by
  unfold get_pin_index_for_inst
  rw [if_pos hpin, hdec,
    pin_index_for_inst_scan_app pin_index l1 st l2 0 (by omega) (by omega)]
  simp

/-- Witness for C4 at the spec's concrete scenario: in `tile10`
(sub-tiles of 6 and 4 root pins), pin index 7 resolves into the second
sub-tile (index 1), capacity instance 0, local index 1. -/
theorem get_pin_index_for_inst_locates_witness :
    get_pin_index_for_inst tile10 7 = PinIndexResult.ok 1 0 1 := by
  have h := get_pin_index_for_inst_locates tile10 [ST0] ST1 [] 7 rfl
    (by decide) (by decide) (by decide)
  rw [h]
  decide

/-! ## C10: sub-tile resolution order for a logical block -/

theorem logical_block_sub_tile_index_scan_none (logical_block : LogicalBlock) :
    ∀ (l : List SubTile) (acc : Option Nat),
      (∀ st ∈ l, logical_block ∉ st.equivalent_sites) →
      logical_block_sub_tile_index_scan logical_block l acc = acc := by
  intro l
  induction l with
  | nil => intro acc _; rfl
  | cons a l ih =>
    intro acc h
    simp only [logical_block_sub_tile_index_scan]
    rw [if_neg (h a (by simp))]
    exact ih acc (fun st hst => h st (by simp [hst]))

theorem logical_block_sub_tile_index_scan_last (logical_block : LogicalBlock)
    (st : SubTile) (hmem : logical_block ∈ st.equivalent_sites) :
    ∀ (l1 l2 : List SubTile) (acc : Option Nat),
      (∀ st2 ∈ l2, logical_block ∉ st2.equivalent_sites) →
      logical_block_sub_tile_index_scan logical_block (l1 ++ st :: l2) acc
        = some st.index := by
  intro l1
  induction l1 with
  | nil =>
    intro l2 acc h2
    simp only [List.nil_append, logical_block_sub_tile_index_scan]
    rw [if_pos hmem]
    exact logical_block_sub_tile_index_scan_none logical_block l2 _ h2
  | cons a l1 ih =>
    intro l2 acc h2
    simp only [List.cons_append, logical_block_sub_tile_index_scan]
    by_cases ha : logical_block ∈ a.equivalent_sites
    · rw [if_pos ha]; exact ih l2 _ h2
    · rw [if_neg ha]; exact ih l2 _ h2

theorem logical_block_sub_tile_index_cap_scan_first
    (logical_block : LogicalBlock) (sub_tile_capacity : Nat) (st : SubTile)
    (hmem : logical_block ∈ st.equivalent_sites)
    (hcap : capacity_is_in_range st sub_tile_capacity = true) :
    ∀ (l1 l2 : List SubTile),
      (∀ st2 ∈ l1, ¬(logical_block ∈ st2.equivalent_sites ∧
        capacity_is_in_range st2 sub_tile_capacity = true)) →
      logical_block_sub_tile_index_cap_scan logical_block sub_tile_capacity
        (l1 ++ st :: l2) = some st.index := by
  intro l1
  induction l1 with
  | nil =>
    intro l2 _
    simp only [List.nil_append, logical_block_sub_tile_index_cap_scan]
    rw [if_pos ⟨hmem, hcap⟩]
  | cons a l1 ih =>
    intro l2 h1
    simp only [List.cons_append, logical_block_sub_tile_index_cap_scan]
    rw [if_neg (h1 a (by simp))]
    exact ih l2 (fun st2 hst2 => h1 st2 (by simp [hst2]))

/-- C10.  When a logical block is an equivalent site of a sub-tile `st` and
of no later sub-tile, the two-argument
`get_logical_block_physical_sub_tile_index` resolves to `st` (the last match
in declaration order, since the scan overwrites without stopping), and
`get_physical_pin` therefore translates every logical pin through that last
matching sub-tile; the capacity-qualified three-argument overload instead
returns the first sub-tile that lists the block and whose capacity range
contains the slot. -/
theorem logical_block_sub_tile_resolution_order (t : PhysicalTileType)
    (logical_block : LogicalBlock) :
    (∀ l1 st l2, t.sub_tiles = l1 ++ st :: l2 →
      logical_block ∈ st.equivalent_sites →
      (∀ st2 ∈ l2, logical_block ∉ st2.equivalent_sites) →
      get_logical_block_physical_sub_tile_index t logical_block
          = some st.index ∧
      ∀ pin, get_physical_pin t logical_block pin =
        match get_sub_tile_physical_pin st.index t logical_block pin with
        | none => none
        | some sub_tile_physical_pin =>
          (t.sub_tiles.getD st.index
              default).sub_tile_to_tile_pin_indices.get?
            sub_tile_physical_pin) ∧
    (∀ sub_tile_capacity l1 st l2, t.sub_tiles = l1 ++ st :: l2 →
      logical_block ∈ st.equivalent_sites →
      capacity_is_in_range st sub_tile_capacity = true →
      (∀ st2 ∈ l1, ¬(logical_block ∈ st2.equivalent_sites ∧
        capacity_is_in_range st2 sub_tile_capacity = true)) →
      get_logical_block_physical_sub_tile_index_with_cap t logical_block
        sub_tile_capacity = some st.index) := by
  constructor
  · intro l1 st l2 hdec hmem h2
    have hidx : get_logical_block_physical_sub_tile_index t logical_block
        = some st.index := by
      unfold get_logical_block_physical_sub_tile_index
      rw [hdec]
      exact logical_block_sub_tile_index_scan_last logical_block st hmem l1 l2
        none h2
    refine ⟨hidx, fun pin => ?_⟩
    unfold get_physical_pin
    rw [hidx]
  · intro sub_tile_capacity l1 st l2 hdec hmem hcap h1
    unfold get_logical_block_physical_sub_tile_index_with_cap
    rw [hdec]
    exact logical_block_sub_tile_index_cap_scan_first logical_block
      sub_tile_capacity st hmem hcap l1 l2 h1

/-- A logical block listed by both sub-tiles of `tileC10`. -/
def lbX : LogicalBlock := ⟨0, 1, 1, 0⟩

/-- A second logical block, listed only by the second sub-tile. -/
def lbY : LogicalBlock := ⟨1, 1, 1, 0⟩

/-- First sub-tile of `tileC10`: capacity range `[0,0]`, lists `lbX`. -/
def STa : SubTile := ⟨0, 0, 0, 2, [lbX], [], [0, 1]⟩

/-- Second sub-tile of `tileC10`: capacity range `[1,1]`, lists `lbX` and
`lbY`. -/
def STb : SubTile := ⟨1, 1, 1, 2, [lbX, lbY], [], [2, 3]⟩

/-- A tile in which `lbX` is an equivalent site of both sub-tiles; its direct
pin map sends `lbX`'s logical pin 0 at sub-tile 1 to sub-tile-local pin 0. -/
def tileC10 : PhysicalTileType :=
  ⟨"TC", 4, [STa, STb], [], [],
   fun lb_index sub_tile_index pin =>
     if lb_index = 0 ∧ sub_tile_index = 1 ∧ pin = 0 then some 0 else none⟩

/-- Witness for C10 at `tileC10`: the two-argument lookup for `lbX` returns
the last matching sub-tile (1), the capacity-qualified lookup at slot 0
returns the first qualifying sub-tile (0), and `get_physical_pin` translates
through sub-tile 1. -/
theorem logical_block_sub_tile_resolution_order_witness :
    get_logical_block_physical_sub_tile_index tileC10 lbX = some 1 ∧
    get_logical_block_physical_sub_tile_index_with_cap tileC10 lbX 0
        = some 0 ∧
    get_physical_pin tileC10 lbX 0 = some 2 := by
  obtain ⟨h1, h2⟩ := logical_block_sub_tile_resolution_order tileC10 lbX
  have ha := h1 [STa] STb [] rfl (by decide) (by decide)
  have hb := h2 0 [] STa [STb] rfl (by decide) (by decide) (by decide)
  refine ⟨ha.1, hb, ?_⟩
  rw [ha.2 0]
  decide

/-! ## C1: the capacity-location round trip -/

/-- Two sub-tiles have disjoint capacity ranges. -/
def cap_ranges_disjoint (a b : SubTile) : Prop :=
  a.capacity_high < b.capacity_low ∨ b.capacity_high < a.capacity_low

instance : DecidableRel cap_ranges_disjoint := fun a b => by
  unfold cap_ranges_disjoint
  exact inferInstance

theorem capacity_is_in_range_iff (st : SubTile) (v : Nat) :
    capacity_is_in_range st v = true ↔
      st.capacity_low ≤ v ∧ v ≤ st.capacity_high := by
  simp [capacity_is_in_range]

/-- Forward-then-inverse half of the round trip, generalized over the
accumulator shared by the two scans. -/
theorem capacity_location_scan_round_trip :
    ∀ (subs : List SubTile) (pin acc : Nat),
      (∀ st ∈ subs, capacity_total st ∣ st.num_phy_pins ∧
        st.capacity_low ≤ st.capacity_high) →
      subs.Pairwise cap_ranges_disjoint →
      acc ≤ pin → pin < acc + sum_phy_pins subs →
      ∃ st cl rp, st ∈ subs ∧ capacity_is_in_range st cl = true ∧
        capacity_location_scan subs pin acc = some (cl, rp) ∧
        physical_pin_from_capacity_scan subs rp cl acc = some pin := by
  intro subs
  induction subs with
  | nil =>
    intro pin acc _ _ hlo hhi
    exact absurd hhi (by simp; omega)
  | cons st0 rest ih =>
    intro pin acc hw hp hlo hhi
    obtain ⟨hdvd0, hlh0⟩ := hw st0 (by simp)
    by_cases hc : pin - acc < st0.num_phy_pins
    · -- the pin lands in the head sub-tile
      obtain ⟨tot, htot⟩ : ∃ x, capacity_total st0 = x := ⟨_, rfl⟩
      obtain ⟨perInst, hperInst⟩ :
          ∃ x, st0.num_phy_pins / capacity_total st0 = x := ⟨_, rfl⟩
      have htotval : tot = st0.capacity_high - st0.capacity_low + 1 := by
        rw [← htot]; rfl
      have hnum0 : 0 < st0.num_phy_pins := by omega
      have hmul : tot * perInst = st0.num_phy_pins := by
        rw [← htot, ← hperInst]; exact Nat.mul_div_cancel' hdvd0
      have hmul' : perInst * tot = st0.num_phy_pins := by
        rw [Nat.mul_comm]; exact hmul
      have hper0 : 0 < perInst := by
        rcases Nat.eq_zero_or_pos perInst with h | h
        · rw [h, Nat.mul_zero] at hmul; omega
        · exact h
      obtain ⟨q, hqdef⟩ : ∃ x, (pin - acc) / perInst = x := ⟨_, rfl⟩
      obtain ⟨m, hmdef⟩ : ∃ x, (pin - acc) % perInst = x := ⟨_, rfl⟩
      have hqlt : q < tot := by
        rw [← hqdef]
        exact Nat.div_lt_of_lt_mul (by omega)
      have hdm : perInst * q + m = pin - acc := by
        rw [← hqdef, ← hmdef]; exact Nat.div_add_mod (pin - acc) perInst
      have hrange0 : capacity_is_in_range st0 (q + st0.capacity_low) = true := by
        rw [capacity_is_in_range_iff]; omega
      refine ⟨st0, q + st0.capacity_low, m, by simp, hrange0, ?_, ?_⟩
      · simp only [capacity_location_scan]
        rw [if_pos hc, hperInst, hqdef, hmdef]
      · simp only [physical_pin_from_capacity_scan]
        rw [if_pos hrange0, hperInst]
        have hqq : q + st0.capacity_low - st0.capacity_low = q := by omega
        rw [hqq]
        congr 1
        omega
    · -- the pin lies beyond the head sub-tile
      have hstep : acc + st0.num_phy_pins ≤ pin := by omega
      have hhi' : pin < acc + st0.num_phy_pins + sum_phy_pins rest := by
        simp only [sum_phy_pins_cons] at hhi; omega
      obtain ⟨st, cl, rp, hmem, hrange, hfwd, hinv⟩ :=
        ih pin (acc + st0.num_phy_pins) (fun u hu => hw u (by simp [hu]))
          (List.pairwise_cons.mp hp).2 hstep hhi'
      have hdisj : cap_ranges_disjoint st0 st :=
        (List.pairwise_cons.mp hp).1 st hmem
      have hrangeN := (capacity_is_in_range_iff st cl).mp hrange
      have hnr0 : ¬ capacity_is_in_range st0 cl = true := by
        rw [capacity_is_in_range_iff]
        unfold cap_ranges_disjoint at hdisj
        omega
      refine ⟨st, cl, rp, by simp [hmem], hrange, ?_, ?_⟩
      · simp only [capacity_location_scan]
        rw [if_neg hc]
        exact hfwd
      · simp only [physical_pin_from_capacity_scan]
        rw [if_neg hnr0]
        exact hinv

/-- Inverse-then-forward half of the round trip, generalized over the
accumulator shared by the two scans. -/
theorem physical_pin_from_capacity_scan_round_trip :
    ∀ (subs : List SubTile) (rp cl acc : Nat) (st : SubTile),
      (∀ u ∈ subs, capacity_total u ∣ u.num_phy_pins ∧
        u.capacity_low ≤ u.capacity_high) →
      subs.Pairwise cap_ranges_disjoint →
      st ∈ subs → capacity_is_in_range st cl = true →
      rp < st.num_phy_pins / capacity_total st →
      ∃ pin, physical_pin_from_capacity_scan subs rp cl acc = some pin ∧
        capacity_location_scan subs pin acc = some (cl, rp) ∧
        acc ≤ pin ∧ pin < acc + sum_phy_pins subs := by
  intro subs
  induction subs with
  | nil =>
    intro rp cl acc st _ _ hmem _ _
    exact absurd hmem (by simp)
  | cons st0 rest ih =>
    intro rp cl acc st hw hp hmem hrange hrp
    obtain ⟨hdvd0, hlh0⟩ := hw st0 (by simp)
    have hrangeN := (capacity_is_in_range_iff st cl).mp hrange
    by_cases h0 : capacity_is_in_range st0 cl = true
    · -- the location lies in the head sub-tile's range
      have h0N := (capacity_is_in_range_iff st0 cl).mp h0
      have hrp0 : rp < st0.num_phy_pins / capacity_total st0 := by
        rcases List.mem_cons.mp hmem with h | h
        · rw [h] at hrp; exact hrp
        · exfalso
          have hdisj : cap_ranges_disjoint st0 st :=
            (List.pairwise_cons.mp hp).1 st h
          unfold cap_ranges_disjoint at hdisj
          omega
      obtain ⟨tot, htot⟩ : ∃ x, capacity_total st0 = x := ⟨_, rfl⟩
      obtain ⟨perInst, hperInst⟩ :
          ∃ x, st0.num_phy_pins / capacity_total st0 = x := ⟨_, rfl⟩
      have htotval : tot = st0.capacity_high - st0.capacity_low + 1 := by
        rw [← htot]; rfl
      have hrp' : rp < perInst := by rw [← hperInst]; exact hrp0
      have hper0 : 0 < perInst := by omega
      have hmul : tot * perInst = st0.num_phy_pins := by
        rw [← htot, ← hperInst]; exact Nat.mul_div_cancel' hdvd0
      obtain ⟨q, hq⟩ : ∃ x, cl - st0.capacity_low = x := ⟨_, rfl⟩
      have hqb : q + 1 ≤ tot := by omega
      have hlt0 : perInst * q + rp < st0.num_phy_pins := by
        have h1 : perInst * q + perInst ≤ perInst * tot := by
          have h2 := Nat.mul_le_mul_left perInst hqb
          rw [Nat.mul_add, Nat.mul_one] at h2
          exact h2
        have h3 : perInst * tot = st0.num_phy_pins := by
          rw [Nat.mul_comm]; exact hmul
        omega
      refine ⟨acc + perInst * q + rp, ?_, ?_, by omega, ?_⟩
      · simp only [physical_pin_from_capacity_scan]
        rw [if_pos h0, hperInst, hq, Nat.add_assoc]
      · simp only [capacity_location_scan]
        rw [if_pos (show acc + perInst * q + rp - acc < st0.num_phy_pins by
          omega)]
        rw [hperInst]
        have hsub : acc + perInst * q + rp - acc = perInst * q + rp := by omega
        rw [hsub]
        have hdiv : (perInst * q + rp) / perInst = q := by
          rw [Nat.mul_add_div hper0, Nat.div_eq_of_lt hrp', Nat.add_zero]
        have hmod : (perInst * q + rp) % perInst = rp := by
          rw [Nat.mul_add_mod, Nat.mod_eq_of_lt hrp']
        rw [hdiv, hmod]
        have hcl : q + st0.capacity_low = cl := by omega
        rw [hcl]
      · simp only [sum_phy_pins_cons]
        omega
    · -- the location lies beyond the head sub-tile
      have hmem' : st ∈ rest := by
        rcases List.mem_cons.mp hmem with h | h
        · exfalso; rw [h] at hrange; exact h0 hrange
        · exact h
      obtain ⟨pin, hinv, hfwd, hge, hlt⟩ :=
        ih rp cl (acc + st0.num_phy_pins) st
          (fun u hu => hw u (by simp [hu]))
          (List.pairwise_cons.mp hp).2 hmem' hrange hrp
      refine ⟨pin, ?_, ?_, by omega, ?_⟩
      · simp only [physical_pin_from_capacity_scan]
        rw [if_neg h0]
        exact hinv
      · simp only [capacity_location_scan]
        rw [if_neg (show ¬ pin - acc < st0.num_phy_pins by omega)]
        exact hfwd
      · simp only [sum_phy_pins_cons]
        omega

/-- C1.  For a tile whose sub-tiles have per-instance-divisible pin counts,
non-empty capacity ranges, and pairwise-disjoint capacity ranges:
(1) for every valid root-level physical pin, the
`get_capacity_location_from_physical_pin` then
`get_physical_pin_from_capacity_location` composition returns exactly the
pin; (2) for every valid (relative pin, capacity location) pair — location
inside some sub-tile's `[low, high]` range, relative pin below that
sub-tile's per-instance pin count — the inverse-then-forward composition
reproduces the pair.  (By the §3 invariant the valid root-level pin indices
`pin < tile.num_pins` are exactly `pin < sum_phy_pins tile.sub_tiles`.) -/
theorem capacity_location_round_trip (t : PhysicalTileType)
    (hw : ∀ st ∈ t.sub_tiles, capacity_total st ∣ st.num_phy_pins ∧
      st.capacity_low ≤ st.capacity_high)
    (hp : t.sub_tiles.Pairwise cap_ranges_disjoint) :
    (∀ pin, pin < sum_phy_pins t.sub_tiles →
      ∃ cl rp, get_capacity_location_from_physical_pin t pin = some (cl, rp) ∧
        get_physical_pin_from_capacity_location t rp cl = some pin) ∧
    (∀ st cl rp, st ∈ t.sub_tiles → capacity_is_in_range st cl = true →
      rp < st.num_phy_pins / capacity_total st →
      ∃ pin, get_physical_pin_from_capacity_location t rp cl = some pin ∧
        get_capacity_location_from_physical_pin t pin = some (cl, rp)) := by
  constructor
  · intro pin hpin
    obtain ⟨st, cl, rp, _, _, hfwd, hinv⟩ :=
      capacity_location_scan_round_trip t.sub_tiles pin 0 hw hp
        (Nat.zero_le pin) (by omega)
    exact ⟨cl, rp, hfwd, hinv⟩
  · intro st cl rp hmem hrange hrp
    obtain ⟨pin, hinv, hfwd, _, _⟩ :=
      physical_pin_from_capacity_scan_round_trip t.sub_tiles rp cl 0 st hw hp
        hmem hrange hrp
    exact ⟨pin, hinv, hfwd⟩

/-- Witness for C1 at `tile10`: pin 7 maps to capacity location 1, relative
pin 1, and back; the pair (relative pin 1, capacity location 1) maps to pin
7 and back. -/
theorem capacity_location_round_trip_witness :
    (∃ cl rp,
      get_capacity_location_from_physical_pin tile10 7 = some (cl, rp) ∧
      get_physical_pin_from_capacity_location tile10 rp cl = some 7) ∧
    get_capacity_location_from_physical_pin tile10 7 = some (1, 1) ∧
    get_physical_pin_from_capacity_location tile10 1 1 = some 7 := by
  refine ⟨?_, by decide, by decide⟩
  exact (capacity_location_round_trip tile10 (by decide) (by decide)).1 7
    (by decide)

/-! ## C5: the class-number round trip

First, a characterization of the forward translator
`get_primitives_class_physical_num`: at a valid target
(sub-tile position, equivalent site, relative capacity) it returns the
class count accumulated before the target under the linearization policy,
plus the logical class number. -/

theorem prim_sites_scan_miss (lb : LogicalBlock) (lg : Nat) (hit : Bool) :
    ∀ (sites : List LogicalBlock) (acc : Nat),
      hit = false ∨ lb ∉ sites →
      prim_class_scan_sites lb lg hit sites acc
        = Sum.inl (acc + sum_primitive_classes sites) := by
  intro sites
  induction sites with
  | nil => intro acc _; unfold prim_class_scan_sites; simp
  | cons s rest ih =>
    intro acc h
    have hcond : ¬ (hit = true ∧ s = lb) := by
      rcases h with h | h
      · rintro ⟨h1, _⟩; rw [h] at h1; exact Bool.false_ne_true h1
      · rintro ⟨_, h2⟩
        exact h (by rw [← h2]; exact List.mem_cons_self s rest)
    have htail : hit = false ∨ lb ∉ rest := by
      rcases h with h | h
      · exact Or.inl h
      · exact Or.inr fun hm => h (List.mem_cons_of_mem s hm)
    unfold prim_class_scan_sites
    rw [if_neg hcond, ih (acc + s.num_primitive_classes) htail]
    exact congrArg Sum.inl (by simp only [sum_primitive_classes_cons]; omega)

theorem prim_sites_scan_hit (lb : LogicalBlock) (lg : Nat) :
    ∀ (p : List LogicalBlock) (r : List LogicalBlock) (acc : Nat), lb ∉ p →
      prim_class_scan_sites lb lg true (p ++ lb :: r) acc
        = Sum.inr (acc + sum_primitive_classes p + lg) := by
  intro p
  induction p with
  | nil =>
    intro r acc _
    simp only [List.nil_append]
    unfold prim_class_scan_sites
    rw [if_pos ⟨rfl, rfl⟩]
    exact congrArg Sum.inr (by simp)
  | cons s rest ih =>
    intro r acc hp
    have hs : ¬ s = lb := fun h =>
      hp (by rw [← h]; exact List.mem_cons_self s rest)
    simp only [List.cons_append]
    unfold prim_class_scan_sites
    rw [if_neg (by rintro ⟨_, h2⟩; exact hs h2)]
    show prim_class_scan_sites lb lg true (rest ++ lb :: r)
      (acc + s.num_primitive_classes) = _
    rw [ih r (acc + s.num_primitive_classes)
      (fun hm => hp (List.mem_cons_of_mem s hm))]
    exact congrArg Sum.inr (by simp only [sum_primitive_classes_cons]; omega)

theorem prim_caps_scan_miss (lb : LogicalBlock) (lg : Nat) (st_hit : Bool)
    (c : Nat) (sites : List LogicalBlock) :
    ∀ (k i acc : Nat),
      st_hit = false ∨ lb ∉ sites ∨ c < i ∨ i + k ≤ c →
      prim_class_scan_caps lb lg st_hit c sites k i acc
        = Sum.inl (acc + k * sum_primitive_classes sites) := by
  intro k
  induction k with
  | zero => intro i acc _; unfold prim_class_scan_caps; simp
  | succ k ih =>
    intro i acc h
    have hflag : (st_hit && decide (i = c)) = false ∨ lb ∉ sites := by
      rcases h with h | h | h | h
      · rw [h]; exact Or.inl rfl
      · exact Or.inr h
      · refine Or.inl ?_
        have hne : ¬ i = c := by omega
        simp [hne]
      · refine Or.inl ?_
        have hne : ¬ i = c := by omega
        simp [hne]
    have htail : st_hit = false ∨ lb ∉ sites ∨ c < i + 1 ∨ (i + 1) + k ≤ c := by
      rcases h with h | h | h | h
      · exact Or.inl h
      · exact Or.inr (Or.inl h)
      · exact Or.inr (Or.inr (Or.inl (by omega)))
      · exact Or.inr (Or.inr (Or.inr (by omega)))
    unfold prim_class_scan_caps
    rw [prim_sites_scan_miss lb lg _ sites acc hflag]
    show prim_class_scan_caps lb lg st_hit c sites k (i + 1)
      (acc + sum_primitive_classes sites) = _
    rw [ih (i + 1) (acc + sum_primitive_classes sites) htail]
    refine congrArg Sum.inl ?_
    rw [Nat.succ_mul]
    omega

theorem prim_caps_scan_hit (lb : LogicalBlock) (lg c : Nat)
    (p r sites : List LogicalBlock) (hp : lb ∉ p)
    (hsites : sites = p ++ lb :: r) :
    ∀ (k i acc : Nat), i ≤ c → c < i + k →
      prim_class_scan_caps lb lg true c sites k i acc
        = Sum.inr (acc + (c - i) * sum_primitive_classes sites
            + sum_primitive_classes p + lg) := by
  intro k
  induction k with
  | zero => intro i acc h1 h2; omega
  | succ k ih =>
    intro i acc h1 h2
    by_cases hic : i = c
    · subst hic
      unfold prim_class_scan_caps
      rw [show (true && decide (i = i)) = true by simp]
      rw [hsites, prim_sites_scan_hit lb lg p r acc hp]
      refine congrArg Sum.inr ?_
      rw [Nat.sub_self, Nat.zero_mul]
      omega
    · have hflagf : (true && decide (i = c)) = false := by simp [hic]
      unfold prim_class_scan_caps
      rw [prim_sites_scan_miss lb lg (true && decide (i = c)) sites acc
        (Or.inl hflagf)]
      show prim_class_scan_caps lb lg true c sites k (i + 1)
        (acc + sum_primitive_classes sites) = _
      rw [ih (i + 1) (acc + sum_primitive_classes sites) (by omega) (by omega)]
      refine congrArg Sum.inr ?_
      have hci : c - i = (c - (i + 1)) + 1 := by omega
      rw [hci, Nat.succ_mul]
      omega

theorem prim_sub_tiles_scan_hit (lb : LogicalBlock) (lg c : Nat)
    (st : SubTile) (p r : List LogicalBlock) (hp : lb ∉ p)
    (hsites : st.equivalent_sites = p ++ lb :: r)
    (hc : c < capacity_total st) :
    ∀ (l1 : List SubTile) (l2 : List SubTile) (idx acc : Nat),
      prim_class_scan_sub_tiles (idx + l1.length) lb c lg (l1 ++ st :: l2)
          idx acc
        = Sum.inr (acc + classes_in_sub_tiles l1
            + c * sum_primitive_classes st.equivalent_sites
            + sum_primitive_classes p + lg) := by
  intro l1
  induction l1 with
  | nil =>
    intro l2 idx acc
    simp only [List.nil_append, List.length_nil, Nat.add_zero]
    unfold prim_class_scan_sub_tiles
    rw [show (decide (idx = idx)) = true by simp]
    rw [prim_caps_scan_hit lb lg c p r st.equivalent_sites hp hsites
      (capacity_total st) 0 acc (Nat.zero_le c) (by omega)]
    refine congrArg Sum.inr ?_
    rw [Nat.sub_zero]
    simp only [classes_in_sub_tiles_nil]
    omega
  | cons a l1 ih =>
    intro l2 idx acc
    have hcur : idx + (a :: l1).length = (idx + 1) + l1.length := by
      simp only [List.length_cons]; omega
    rw [hcur]
    simp only [List.cons_append]
    unfold prim_class_scan_sub_tiles
    rw [show (decide (idx = idx + 1 + l1.length)) = false by simp; omega]
    rw [prim_caps_scan_miss lb lg false c a.equivalent_sites
      (capacity_total a) 0 acc (Or.inl rfl)]
    show prim_class_scan_sub_tiles (idx + 1 + l1.length) lb c lg
      (l1 ++ st :: l2) (idx + 1)
      (acc + capacity_total a * sum_primitive_classes a.equivalent_sites) = _
    rw [ih l2 (idx + 1)
      (acc + capacity_total a * sum_primitive_classes a.equivalent_sites)]
    refine congrArg Sum.inr ?_
    simp only [classes_in_sub_tiles_cons, sub_tile_num_classes]
    omega

theorem get_primitives_class_physical_num_spec (t : PhysicalTileType)
    (l1 : List SubTile) (st : SubTile) (l2 : List SubTile)
    (p r : List LogicalBlock) (lb : LogicalBlock) (c lg : Nat)
    (hdec : t.sub_tiles = l1 ++ st :: l2)
    (hsites : st.equivalent_sites = p ++ lb :: r) (hp : lb ∉ p)
    (hc : c < capacity_total st) :
    get_primitives_class_physical_num t l1.length lb c lg
      = ((classes_in_sub_tiles l1
          + c * sum_primitive_classes st.equivalent_sites
          + sum_primitive_classes p + lg : Nat) : Int) := by
  unfold get_primitives_class_physical_num
  rw [hdec]
  have h := prim_sub_tiles_scan_hit lb lg c st p r hp hsites hc l1 l2 0 0
  rw [show (0 : Nat) + l1.length = l1.length by omega] at h
  rw [h]
  exact congrArg Int.ofNat (by omega)

/-! ### Window bounds and inverse scans (sub-tile and capacity lookups) -/

theorem target_site_bound (sites p r : List LogicalBlock) (lb : LogicalBlock)
    (lg : Nat) (hsites : sites = p ++ lb :: r)
    (hlg : lg < lb.num_primitive_classes) :
    sum_primitive_classes p + lg < sum_primitive_classes sites := by
  rw [hsites, sum_primitive_classes_append, sum_primitive_classes_cons]
  omega

theorem target_class_bound (sites p r : List LogicalBlock) (lb : LogicalBlock)
    (c lg tot : Nat) (hsites : sites = p ++ lb :: r)
    (hlg : lg < lb.num_primitive_classes) (hc : c < tot) :
    c * sum_primitive_classes sites + sum_primitive_classes p + lg
      < tot * sum_primitive_classes sites := by
  have h0 := target_site_bound sites p r lb lg hsites hlg
  have h3 := Nat.mul_le_mul_right (sum_primitive_classes sites)
    (show c + 1 ≤ tot by omega)
  rw [Nat.succ_mul] at h3
  omega

theorem nodup_middle_not_mem {α : Type} (l1 : List α) (a : α) (l2 : List α)
    (h : (l1 ++ a :: l2).Nodup) : a ∉ l1 := by
  rcases List.nodup_append.mp h with ⟨_, _, hdisj⟩
  intro hm
  exact hdisj hm (List.mem_cons_self a l2)

theorem sub_tile_from_class_scan_spec (t : PhysicalTileType)
    (st : SubTile) (l2 : List SubTile) (p r : List LogicalBlock)
    (lb : LogicalBlock) (c lg N : Nat)
    (hwf : ∀ u ∈ t.sub_tiles, u.equivalent_sites ≠ [])
    (hsites : st.equivalent_sites = p ++ lb :: r) (hp : lb ∉ p)
    (hc : c < capacity_total st) (hlg : lg < lb.num_primitive_classes) :
    ∀ (mid pre : List SubTile),
      t.sub_tiles = pre ++ (mid ++ st :: l2) →
      N = classes_in_sub_tiles (pre ++ mid)
            + c * sum_primitive_classes st.equivalent_sites
            + sum_primitive_classes p + lg →
      sub_tile_from_class_scan t (N : Int) (mid ++ st :: l2) pre.length
        = some (pre.length + mid.length) := by
  intro mid
  induction mid with
  | nil =>
    intro pre hdec hN
    simp only [List.append_nil] at hN
    simp only [List.nil_append] at hdec ⊢
    have hmem : st ∈ t.sub_tiles := by
      rw [hdec]; exact List.mem_append_right pre (List.mem_cons_self st l2)
    obtain ⟨s0, srest, hsplit⟩ := List.exists_cons_of_ne_nil (hwf st hmem)
    have hhead : st.equivalent_sites.headI = s0 := by rw [hsplit]; rfl
    have hstart := get_primitives_class_physical_num_spec t pre st l2 []
      srest s0 0 0 hdec (by rw [hsplit]; rfl) (by simp)
      (by unfold capacity_total; omega)
    simp only [sum_primitive_classes_nil, Nat.zero_mul, Nat.add_zero]
      at hstart
    have hbound := target_class_bound st.equivalent_sites p r lb c lg
      (capacity_total st) hsites hlg hc
    have hsz : sub_tile_num_classes st
        = capacity_total st * sum_primitive_classes st.equivalent_sites := rfl
    simp only [sub_tile_from_class_scan]
    rw [hhead, hstart, if_pos (by omega)]
    simp
  | cons a mid ih =>
    intro pre hdec hN
    have hdeca : t.sub_tiles = pre ++ a :: (mid ++ st :: l2) := by
      rw [hdec]; simp
    have hmema : a ∈ t.sub_tiles := by
      rw [hdeca]
      exact List.mem_append_right pre (List.mem_cons_self a _)
    obtain ⟨a0, arest, hasplit⟩ := List.exists_cons_of_ne_nil (hwf a hmema)
    have hheada : a.equivalent_sites.headI = a0 := by rw [hasplit]; rfl
    have hstarta := get_primitives_class_physical_num_spec t pre a
      (mid ++ st :: l2) [] arest a0 0 0 hdeca (by rw [hasplit]; rfl) (by simp)
      (by unfold capacity_total; omega)
    simp only [sum_primitive_classes_nil, Nat.zero_mul, Nat.add_zero]
      at hstarta
    have hCP : classes_in_sub_tiles (pre ++ a :: mid)
        = classes_in_sub_tiles pre + sub_tile_num_classes a
          + classes_in_sub_tiles mid := by
      rw [classes_in_sub_tiles_append, classes_in_sub_tiles_cons]
      omega
    simp only [List.cons_append]
    simp only [sub_tile_from_class_scan]
    rw [hheada, hstarta, if_neg (by rintro ⟨h1, h2⟩; omega)]
    have hih := ih (pre ++ [a])
      (by rw [hdec]; simp)
      (by rw [show (pre ++ [a]) ++ mid = pre ++ a :: mid by simp]; exact hN)
    rw [show (pre ++ [a]).length = pre.length + 1 by simp] at hih
    rw [hih]
    congr 1
    simp only [List.length_cons]
    omega

theorem caps_windows_scan_none (t : PhysicalTileType) (N : Nat)
    (pre : List SubTile) (a : SubTile) (suf : List SubTile)
    (hdec : t.sub_tiles = pre ++ a :: suf)
    (a0 : LogicalBlock) (arest : List LogicalBlock)
    (hasplit : a.equivalent_sites = a0 :: arest)
    (hge : classes_in_sub_tiles pre + sub_tile_num_classes a ≤ N) :
    ∀ (k i : Nat), i + k ≤ capacity_total a →
      sub_tile_cap_class_caps_scan t (N : Int) pre.length a k i = none := by
  intro k
  induction k with
  | zero => intro i _; rfl
  | succ k ih =>
    intro i hik
    have hheada : a.equivalent_sites.headI = a0 := by rw [hasplit]; rfl
    have hstart := get_primitives_class_physical_num_spec t pre a suf []
      arest a0 i 0 hdec (by rw [hasplit]; rfl) (by simp) (by omega)
    simp only [sum_primitive_classes_nil, Nat.add_zero] at hstart
    have hsz : sub_tile_num_classes a
        = capacity_total a * sum_primitive_classes a.equivalent_sites := rfl
    have hmle := Nat.mul_le_mul_right
      (sum_primitive_classes a.equivalent_sites)
      (show i + 1 ≤ capacity_total a by omega)
    rw [Nat.succ_mul] at hmle
    simp only [sub_tile_cap_class_caps_scan]
    rw [hheada, hstart, if_neg (by rintro ⟨h1, h2⟩; omega)]
    exact ih (i + 1) (by omega)

theorem caps_windows_scan_target (t : PhysicalTileType)
    (l1 : List SubTile) (st : SubTile) (l2 : List SubTile)
    (p r : List LogicalBlock) (lb : LogicalBlock) (c lg N : Nat)
    (hdec : t.sub_tiles = l1 ++ st :: l2)
    (hsites : st.equivalent_sites = p ++ lb :: r) (hp : lb ∉ p)
    (hc : c < capacity_total st) (hlg : lg < lb.num_primitive_classes)
    (hN : N = classes_in_sub_tiles l1
        + c * sum_primitive_classes st.equivalent_sites
        + sum_primitive_classes p + lg) :
    ∀ (k i : Nat), i ≤ c → c < i + k →
      sub_tile_cap_class_caps_scan t (N : Int) l1.length st k i = some c := by
  intro k
  induction k with
  | zero => intro i h1 h2; omega
  | succ k ih =>
    intro i h1 h2
    have hne : st.equivalent_sites ≠ [] := by
      rw [hsites]; cases p <;> simp
    obtain ⟨s0, srest, hsplit⟩ := List.exists_cons_of_ne_nil hne
    have hhead : st.equivalent_sites.headI = s0 := by rw [hsplit]; rfl
    have hstart := get_primitives_class_physical_num_spec t l1 st l2 []
      srest s0 i 0 hdec (by rw [hsplit]; rfl) (by simp) (by omega)
    simp only [sum_primitive_classes_nil, Nat.zero_mul, Nat.add_zero]
      at hstart
    simp only [sub_tile_cap_class_caps_scan]
    rw [hhead, hstart]
    by_cases hic : i = c
    · subst hic
      have hb := target_site_bound st.equivalent_sites p r lb lg hsites hlg
      rw [if_pos (by omega)]
    · have hmle := Nat.mul_le_mul_right
        (sum_primitive_classes st.equivalent_sites)
        (show i + 1 ≤ c by omega)
      rw [Nat.succ_mul] at hmle
      rw [if_neg (by rintro ⟨hx1, hx2⟩; omega)]
      exact ih (i + 1) (by omega) (by omega)

theorem sub_tile_cap_from_class_scan_spec (t : PhysicalTileType)
    (st : SubTile) (l2 : List SubTile) (p r : List LogicalBlock)
    (lb : LogicalBlock) (c lg N : Nat)
    (hwf : ∀ u ∈ t.sub_tiles, u.equivalent_sites ≠ [])
    (hsites : st.equivalent_sites = p ++ lb :: r) (hp : lb ∉ p)
    (hc : c < capacity_total st) (hlg : lg < lb.num_primitive_classes) :
    ∀ (mid pre : List SubTile),
      t.sub_tiles = pre ++ (mid ++ st :: l2) →
      N = classes_in_sub_tiles (pre ++ mid)
            + c * sum_primitive_classes st.equivalent_sites
            + sum_primitive_classes p + lg →
      sub_tile_cap_from_class_scan t (N : Int) (mid ++ st :: l2) pre.length
        = some c := by
  intro mid
  induction mid with
  | nil =>
    intro pre hdec hN
    simp only [List.append_nil] at hN
    simp only [List.nil_append] at hdec ⊢
    have htgt := caps_windows_scan_target t pre st l2 p r lb c lg N hdec
      hsites hp hc hlg hN (capacity_total st) 0 (Nat.zero_le c) (by omega)
    simp only [sub_tile_cap_from_class_scan]
    rw [htgt]
  | cons a mid ih =>
    intro pre hdec hN
    have hdeca : t.sub_tiles = pre ++ a :: (mid ++ st :: l2) := by
      rw [hdec]; simp
    have hmema : a ∈ t.sub_tiles := by
      rw [hdeca]
      exact List.mem_append_right pre (List.mem_cons_self a _)
    obtain ⟨a0, arest, hasplit⟩ := List.exists_cons_of_ne_nil (hwf a hmema)
    have hCP : classes_in_sub_tiles (pre ++ a :: mid)
        = classes_in_sub_tiles pre + sub_tile_num_classes a
          + classes_in_sub_tiles mid := by
      rw [classes_in_sub_tiles_append, classes_in_sub_tiles_cons]
      omega
    have hnone := caps_windows_scan_none t N pre a (mid ++ st :: l2) hdeca
      a0 arest hasplit (by omega) (capacity_total a) 0 (by omega)
    simp only [List.cons_append]
    simp only [sub_tile_cap_from_class_scan]
    rw [hnone]
    have hih := ih (pre ++ [a])
      (by rw [hdec]; simp)
      (by rw [show (pre ++ [a]) ++ mid = pre ++ a :: mid by simp]; exact hN)
    rw [show (pre ++ [a]).length = pre.length + 1 by simp] at hih
    exact hih

/-! ### Inverse scans: logical-block lookup -/

theorem lb_sites_scan_none_of_ge (t : PhysicalTileType) (N : Nat)
    (pre : List SubTile) (a : SubTile) (suf : List SubTile)
    (hdec : t.sub_tiles = pre ++ a :: suf)
    (hnodup : a.equivalent_sites.Nodup)
    (cap : Nat) (hcap : cap < capacity_total a)
    (hge : classes_in_sub_tiles pre
        + cap * sum_primitive_classes a.equivalent_sites
        + sum_primitive_classes a.equivalent_sites ≤ N) :
    ∀ (suf2 pre2 : List LogicalBlock),
      a.equivalent_sites = pre2 ++ suf2 →
      logical_block_class_sites_scan t (N : Int) pre.length cap suf2
        = none := by
  intro suf2
  induction suf2 with
  | nil => intro pre2 _; rfl
  | cons s suf2 ih =>
    intro pre2 hsp
    have hsnot : s ∉ pre2 :=
      nodup_middle_not_mem pre2 s suf2 (by rw [← hsp]; exact hnodup)
    have hstart := get_primitives_class_physical_num_spec t pre a suf pre2
      suf2 s cap 0 hdec hsp hsnot hcap
    simp only [Nat.add_zero] at hstart
    have hsum : sum_primitive_classes a.equivalent_sites
        = sum_primitive_classes pre2 + s.num_primitive_classes
          + sum_primitive_classes suf2 := by
      rw [hsp, sum_primitive_classes_append, sum_primitive_classes_cons]
      omega
    simp only [logical_block_class_sites_scan]
    rw [hstart, if_neg (by rintro ⟨h1, h2⟩; omega)]
    exact ih (pre2 ++ [s]) (by rw [hsp]; simp)

theorem lb_sites_scan_target (t : PhysicalTileType)
    (l1 : List SubTile) (st : SubTile) (l2 : List SubTile)
    (p r : List LogicalBlock) (lb : LogicalBlock) (c lg N : Nat)
    (hdec : t.sub_tiles = l1 ++ st :: l2)
    (hsites : st.equivalent_sites = p ++ lb :: r) (hp : lb ∉ p)
    (hnodup : st.equivalent_sites.Nodup)
    (hc : c < capacity_total st) (hlg : lg < lb.num_primitive_classes)
    (hN : N = classes_in_sub_tiles l1
        + c * sum_primitive_classes st.equivalent_sites
        + sum_primitive_classes p + lg) :
    ∀ (mid pre2 : List LogicalBlock), p = pre2 ++ mid →
      logical_block_class_sites_scan t (N : Int) l1.length c (mid ++ lb :: r)
        = some lb := by
  intro mid
  induction mid with
  | nil =>
    intro pre2 hpsplit
    have hstart := get_primitives_class_physical_num_spec t l1 st l2 p r lb
      c 0 hdec hsites hp hc
    simp only [Nat.add_zero] at hstart
    simp only [List.nil_append, logical_block_class_sites_scan]
    rw [hstart, if_pos (by omega)]
  | cons s mid ih =>
    intro pre2 hpsplit
    have hsit : st.equivalent_sites = pre2 ++ s :: (mid ++ lb :: r) := by
      rw [hsites, hpsplit]; simp
    have hsnot : s ∉ pre2 :=
      nodup_middle_not_mem pre2 s (mid ++ lb :: r)
        (by rw [← hsit]; exact hnodup)
    have hstart := get_primitives_class_physical_num_spec t l1 st l2 pre2
      (mid ++ lb :: r) s c 0 hdec hsit hsnot hc
    simp only [Nat.add_zero] at hstart
    have hsump : sum_primitive_classes p
        = sum_primitive_classes pre2 + s.num_primitive_classes
          + sum_primitive_classes mid := by
      rw [hpsplit, sum_primitive_classes_append, sum_primitive_classes_cons]
      omega
    simp only [List.cons_append, logical_block_class_sites_scan]
    rw [hstart, if_neg (by rintro ⟨h1, h2⟩; omega)]
    exact ih (pre2 ++ [s]) (by rw [hpsplit]; simp)

theorem lb_caps_scan_none_of_ge (t : PhysicalTileType) (N : Nat)
    (pre : List SubTile) (a : SubTile) (suf : List SubTile)
    (hdec : t.sub_tiles = pre ++ a :: suf)
    (hnodup : a.equivalent_sites.Nodup)
    (hge : classes_in_sub_tiles pre + sub_tile_num_classes a ≤ N) :
    ∀ (k i : Nat), i + k ≤ capacity_total a →
      logical_block_class_caps_scan t (N : Int) pre.length a k i = none := by
  intro k
  induction k with
  | zero => intro i _; rfl
  | succ k ih =>
    intro i hik
    have hsz : sub_tile_num_classes a
        = capacity_total a * sum_primitive_classes a.equivalent_sites := rfl
    have hmle := Nat.mul_le_mul_right
      (sum_primitive_classes a.equivalent_sites)
      (show i + 1 ≤ capacity_total a by omega)
    rw [Nat.succ_mul] at hmle
    have hnone := lb_sites_scan_none_of_ge t N pre a suf hdec hnodup i
      (by omega) (by omega) a.equivalent_sites [] (by simp)
    simp only [logical_block_class_caps_scan]
    rw [hnone]
    exact ih (i + 1) (by omega)

theorem lb_caps_scan_target (t : PhysicalTileType)
    (l1 : List SubTile) (st : SubTile) (l2 : List SubTile)
    (p r : List LogicalBlock) (lb : LogicalBlock) (c lg N : Nat)
    (hdec : t.sub_tiles = l1 ++ st :: l2)
    (hsites : st.equivalent_sites = p ++ lb :: r) (hp : lb ∉ p)
    (hnodup : st.equivalent_sites.Nodup)
    (hc : c < capacity_total st) (hlg : lg < lb.num_primitive_classes)
    (hN : N = classes_in_sub_tiles l1
        + c * sum_primitive_classes st.equivalent_sites
        + sum_primitive_classes p + lg) :
    ∀ (k i : Nat), i ≤ c → c < i + k →
      logical_block_class_caps_scan t (N : Int) l1.length st k i
        = some lb := by
  intro k
  induction k with
  | zero => intro i h1 h2; omega
  | succ k ih =>
    intro i h1 h2
    by_cases hic : i = c
    · subst hic
      have htgt := lb_sites_scan_target t l1 st l2 p r lb i lg N hdec hsites
        hp hnodup hc hlg hN p [] (by simp)
      simp only [logical_block_class_caps_scan]
      rw [hsites, htgt]
    · have hmle := Nat.mul_le_mul_right
        (sum_primitive_classes st.equivalent_sites)
        (show i + 1 ≤ c by omega)
      rw [Nat.succ_mul] at hmle
      have hnone := lb_sites_scan_none_of_ge t N l1 st l2 hdec hnodup i
        (by omega) (by omega) st.equivalent_sites [] (by simp)
      simp only [logical_block_class_caps_scan]
      rw [hnone]
      exact ih (i + 1) (by omega) (by omega)

theorem logical_block_from_class_scan_spec (t : PhysicalTileType)
    (st : SubTile) (l2 : List SubTile) (p r : List LogicalBlock)
    (lb : LogicalBlock) (c lg N : Nat)
    (hwf : ∀ u ∈ t.sub_tiles,
      u.equivalent_sites ≠ [] ∧ u.equivalent_sites.Nodup)
    (hsites : st.equivalent_sites = p ++ lb :: r) (hp : lb ∉ p)
    (hc : c < capacity_total st) (hlg : lg < lb.num_primitive_classes) :
    ∀ (mid pre : List SubTile),
      t.sub_tiles = pre ++ (mid ++ st :: l2) →
      N = classes_in_sub_tiles (pre ++ mid)
            + c * sum_primitive_classes st.equivalent_sites
            + sum_primitive_classes p + lg →
      logical_block_from_class_scan t (N : Int) (mid ++ st :: l2) pre.length
        = some lb := by
  intro mid
  induction mid with
  | nil =>
    intro pre hdec hN
    simp only [List.append_nil] at hN
    simp only [List.nil_append] at hdec ⊢
    have hstmem : st ∈ t.sub_tiles := by
      rw [hdec]; exact List.mem_append_right pre (List.mem_cons_self st l2)
    have htgt := lb_caps_scan_target t pre st l2 p r lb c lg N hdec hsites
      hp (hwf st hstmem).2 hc hlg hN (capacity_total st) 0 (Nat.zero_le c)
      (by omega)
    simp only [logical_block_from_class_scan]
    rw [htgt]
  | cons a mid ih =>
    intro pre hdec hN
    have hdeca : t.sub_tiles = pre ++ a :: (mid ++ st :: l2) := by
      rw [hdec]; simp
    have hmema : a ∈ t.sub_tiles := by
      rw [hdeca]
      exact List.mem_append_right pre (List.mem_cons_self a _)
    have hCP : classes_in_sub_tiles (pre ++ a :: mid)
        = classes_in_sub_tiles pre + sub_tile_num_classes a
          + classes_in_sub_tiles mid := by
      rw [classes_in_sub_tiles_append, classes_in_sub_tiles_cons]
      omega
    have hnone := lb_caps_scan_none_of_ge t N pre a (mid ++ st :: l2) hdeca
      (hwf a hmema).2 (by omega) (capacity_total a) 0 (by omega)
    simp only [List.cons_append]
    simp only [logical_block_from_class_scan]
    rw [hnone]
    have hih := ih (pre ++ [a])
      (by rw [hdec]; simp)
      (by rw [show (pre ++ [a]) ++ mid = pre ++ a :: mid by simp]; exact hN)
    rw [show (pre ++ [a]).length = pre.length + 1 by simp] at hih
    exact hih

/-! ### Existence of the owner decomposition, and the round trip itself -/

theorem sum_classes_mul (sites : List LogicalBlock) (k : Nat) :
    (sites.map (fun s => s.num_primitive_classes * k)).sum
      = k * sum_primitive_classes sites := by
  induction sites with
  | nil => simp
  | cons s rest ih =>
    simp only [List.map_cons, List.sum_cons, ih, sum_primitive_classes_cons]
    ring

theorem tile_num_primitive_classes_eq (t : PhysicalTileType) :
    get_tile_num_primitive_classes t = classes_in_sub_tiles t.sub_tiles := by
  unfold get_tile_num_primitive_classes
  suffices h : ∀ L : List SubTile,
      (L.map (fun st => (st.equivalent_sites.map (fun s =>
        s.num_primitive_classes * capacity_total st)).sum)).sum
        = classes_in_sub_tiles L from h t.sub_tiles
  intro L
  induction L with
  | nil => simp
  | cons a L ih =>
    simp only [List.map_cons, List.sum_cons, classes_in_sub_tiles_cons, ih,
      sum_classes_mul]
    rfl

theorem exists_owner_sub_tile :
    ∀ (subs : List SubTile) (n : Nat), n < classes_in_sub_tiles subs →
      ∃ l1 st l2, subs = l1 ++ st :: l2 ∧ classes_in_sub_tiles l1 ≤ n ∧
        n < classes_in_sub_tiles l1 + sub_tile_num_classes st := by
  intro subs
  induction subs with
  | nil => intro n hn; exact absurd hn (by simp)
  | cons a rest ih =>
    intro n hn
    by_cases h : n < sub_tile_num_classes a
    · exact ⟨[], a, rest, rfl, by simp, by simp; omega⟩
    · simp only [classes_in_sub_tiles_cons] at hn
      obtain ⟨l1, st, l2, hdec, hlo, hhi⟩ :=
        ih (n - sub_tile_num_classes a) (by omega)
      refine ⟨a :: l1, st, l2, by rw [hdec]; simp, ?_, ?_⟩
      · simp only [classes_in_sub_tiles_cons]; omega
      · simp only [classes_in_sub_tiles_cons]; omega

theorem exists_owner_site :
    ∀ (sites : List LogicalBlock) (m : Nat), m < sum_primitive_classes sites →
      ∃ p lb r, sites = p ++ lb :: r ∧ sum_primitive_classes p ≤ m ∧
        m < sum_primitive_classes p + lb.num_primitive_classes := by
  intro sites
  induction sites with
  | nil => intro m hm; exact absurd hm (by simp)
  | cons s rest ih =>
    intro m hm
    by_cases h : m < s.num_primitive_classes
    · exact ⟨[], s, rest, rfl, by simp, by simp; omega⟩
    · simp only [sum_primitive_classes_cons] at hm
      obtain ⟨p, lb, r, hdec, hlo, hhi⟩ :=
        ih (m - s.num_primitive_classes) (by omega)
      refine ⟨s :: p, lb, r, by rw [hdec]; simp, ?_, ?_⟩
      · simp only [sum_primitive_classes_cons]; omega
      · simp only [sum_primitive_classes_cons]; omega

/-- C5.  For every tile whose sub-tiles all have a non-empty, duplicate-free
equivalent-site list, and every physical class number `n` in the flat
address space (`n < get_tile_num_primitive_classes`), the three lookups
`get_sub_tile_from_class_physical_num` (returning the owning sub-tile's
position), `get_sub_tile_cap_from_class_physical_num` and
`get_logical_block_from_class_physical_num` succeed, the fourth step
`get_class_logical_num_from_class_physical_num` returns a logical class
number, and feeding the resulting quadruple back into
`get_primitives_class_physical_num` reproduces `n` exactly. -/
theorem class_physical_num_round_trip (t : PhysicalTileType)
    (hwf : ∀ u ∈ t.sub_tiles,
      u.equivalent_sites ≠ [] ∧ u.equivalent_sites.Nodup)
    (n : Nat) (hn : n < get_tile_num_primitive_classes t) :
    ∃ (sub_tile_idx : Nat) (cap : Nat) (lb : LogicalBlock) (lg : Nat),
      get_sub_tile_from_class_physical_num t (n : Int) = some sub_tile_idx ∧
      get_sub_tile_cap_from_class_physical_num t (n : Int) = (cap : Int) ∧
      get_logical_block_from_class_physical_num t (n : Int) = some lb ∧
      get_class_logical_num_from_class_physical_num t (n : Int)
        = some (lg : Int) ∧
      get_primitives_class_physical_num t sub_tile_idx lb cap lg
        = (n : Int) := by
  have hwf1 : ∀ u ∈ t.sub_tiles, u.equivalent_sites ≠ [] :=
    fun u hu => (hwf u hu).1
  rw [tile_num_primitive_classes_eq] at hn
  obtain ⟨l1, st, l2, hdec, hlo, hhi⟩ := exists_owner_sub_tile t.sub_tiles n hn
  have hstmem : st ∈ t.sub_tiles := by
    rw [hdec]; exact List.mem_append_right l1 (List.mem_cons_self st l2)
  have hnodup := (hwf st hstmem).2
  obtain ⟨m, hmdef⟩ : ∃ x, n - classes_in_sub_tiles l1 = x := ⟨_, rfl⟩
  have hsz : sub_tile_num_classes st
      = capacity_total st * sum_primitive_classes st.equivalent_sites := rfl
  have hmlt : m < sub_tile_num_classes st := by omega
  have hspos : 0 < sum_primitive_classes st.equivalent_sites := by
    rcases Nat.eq_zero_or_pos (sum_primitive_classes st.equivalent_sites)
      with h | h
    · rw [h, Nat.mul_zero] at hsz; omega
    · exact h
  obtain ⟨cap, hcapdef⟩ :
      ∃ x, m / sum_primitive_classes st.equivalent_sites = x := ⟨_, rfl⟩
  obtain ⟨rem, hremdef⟩ :
      ∃ x, m % sum_primitive_classes st.equivalent_sites = x := ⟨_, rfl⟩
  have hcap : cap < capacity_total st := by
    rw [← hcapdef]
    apply Nat.div_lt_of_lt_mul
    have hcm : sum_primitive_classes st.equivalent_sites * capacity_total st
        = sub_tile_num_classes st := by
      rw [Nat.mul_comm]; exact hsz.symm
    omega
  have hrem : rem < sum_primitive_classes st.equivalent_sites := by
    rw [← hremdef]; exact Nat.mod_lt m hspos
  have hdm : sum_primitive_classes st.equivalent_sites * cap + rem = m := by
    rw [← hcapdef, ← hremdef]
    exact Nat.div_add_mod m (sum_primitive_classes st.equivalent_sites)
  obtain ⟨p, lb, r, hsites, hplo, hphi⟩ :=
    exists_owner_site st.equivalent_sites rem hrem
  have hp : lb ∉ p :=
    nodup_middle_not_mem p lb r (by rw [← hsites]; exact hnodup)
  obtain ⟨lg, hlgdef⟩ : ∃ x, rem - sum_primitive_classes p = x := ⟨_, rfl⟩
  have hlg : lg < lb.num_primitive_classes := by omega
  have hN : n = classes_in_sub_tiles l1
      + cap * sum_primitive_classes st.equivalent_sites
      + sum_primitive_classes p + lg := by
    have hcm : cap * sum_primitive_classes st.equivalent_sites
        = sum_primitive_classes st.equivalent_sites * cap :=
      Nat.mul_comm cap (sum_primitive_classes st.equivalent_sites)
    omega
  have hB1 := sub_tile_from_class_scan_spec t st l2 p r lb cap lg n hwf1
    hsites hp hcap hlg l1 [] (by simpa using hdec) (by simpa using hN)
  have hB2 := sub_tile_cap_from_class_scan_spec t st l2 p r lb cap lg n hwf1
    hsites hp hcap hlg l1 [] (by simpa using hdec) (by simpa using hN)
  have hB3 := logical_block_from_class_scan_spec t st l2 p r lb cap lg n hwf
    hsites hp hcap hlg l1 [] (by simpa using hdec) (by simpa using hN)
  have hG0 := get_primitives_class_physical_num_spec t l1 st l2 p r lb cap 0
    hdec hsites hp hcap
  have hG := get_primitives_class_physical_num_spec t l1 st l2 p r lb cap lg
    hdec hsites hp hcap
  simp only [List.length_nil, Nat.zero_add] at hB1 hB2 hB3
  have e1 : get_sub_tile_from_class_physical_num t (n : Int)
      = some l1.length := by
    unfold get_sub_tile_from_class_physical_num
    rw [hdec]
    exact hB1
  have e2 : get_sub_tile_cap_from_class_physical_num t (n : Int)
      = (cap : Int) := by
    unfold get_sub_tile_cap_from_class_physical_num
    rw [hdec, hB2]
  have e3 : get_logical_block_from_class_physical_num t (n : Int)
      = some lb := by
    unfold get_logical_block_from_class_physical_num
    rw [hdec]
    exact hB3
  have e4 : get_class_logical_num_from_class_physical_num t (n : Int)
      = some (lg : Int) := by
    unfold get_class_logical_num_from_class_physical_num
    simp only [e1, e2, e3]
    rw [if_neg (by omega)]
    rw [show ((cap : Int)).toNat = cap from Int.toNat_ofNat cap]
    rw [hG0]
    rw [if_neg (by omega)]
    congr 1
    omega
  have e5 : get_primitives_class_physical_num t l1.length lb cap lg
      = (n : Int) := by
    rw [hG]
    omega
  exact ⟨l1.length, cap, lb, lg, e1, e2, e3, e4, e5⟩

/-- A logical block with two primitive equivalence classes. -/
def lbA : LogicalBlock := ⟨2, 0, 0, 2⟩

/-- A logical block with one primitive equivalence class. -/
def lbB : LogicalBlock := ⟨3, 0, 0, 1⟩

/-- First sub-tile of `tile5`: capacity range `[0,1]` (2 instances),
equivalent sites `lbA` then `lbB`. -/
def ST5a : SubTile := ⟨0, 0, 1, 0, [lbA, lbB], [], []⟩

/-- Second sub-tile of `tile5`: capacity range `[2,2]`, equivalent site
`lbA` again (the same block serving two sub-tiles). -/
def ST5b : SubTile := ⟨1, 2, 2, 0, [lbA], [], []⟩

/-- A tile with 8 primitive classes: 2 instances of (lbA: 2, lbB: 1) in the
first sub-tile, then 1 instance of lbA in the second. -/
def tile5 : PhysicalTileType :=
  ⟨"T5", 0, [ST5a, ST5b], [], [], fun _ _ _ => none⟩

/-- Witness for C5 at `tile5`, physical class number 4 (second capacity
instance of the first sub-tile, block `lbA`, logical class 1). -/
theorem class_physical_num_round_trip_witness :
    (∀ u ∈ tile5.sub_tiles,
      u.equivalent_sites ≠ [] ∧ u.equivalent_sites.Nodup) ∧
    4 < get_tile_num_primitive_classes tile5 ∧
    (∃ (sub_tile_idx : Nat) (cap : Nat) (lb : LogicalBlock) (lg : Nat),
      get_sub_tile_from_class_physical_num tile5 ((4 : Nat) : Int)
          = some sub_tile_idx ∧
      get_sub_tile_cap_from_class_physical_num tile5 ((4 : Nat) : Int)
          = (cap : Int) ∧
      get_logical_block_from_class_physical_num tile5 ((4 : Nat) : Int)
          = some lb ∧
      get_class_logical_num_from_class_physical_num tile5 ((4 : Nat) : Int)
          = some (lg : Int) ∧
      get_primitives_class_physical_num tile5 sub_tile_idx lb cap lg
          = ((4 : Nat) : Int)) ∧
    get_sub_tile_from_class_physical_num tile5 4 = some 0 ∧
    get_sub_tile_cap_from_class_physical_num tile5 4 = 1 ∧
    get_logical_block_from_class_physical_num tile5 4 = some lbA ∧
    get_class_logical_num_from_class_physical_num tile5 4 = some 1 ∧
    get_primitives_class_physical_num tile5 0 lbA 1 1 = 4 := by
  refine ⟨by decide, by decide,
    class_physical_num_round_trip tile5 (by decide) 4 (by decide),
    by decide, by decide, by decide, by decide, by decide⟩
